import Mathlib

/-!
Verification of the hydra-compose render pipeline.

This file gives a shallow embedding, over the rationals, of the pure
algorithmic core of the repository:

* `BeatSyncEngine.calculate_cuts` (src/app/app/services/beat_sync.py),
* the duration-planning block of `VideoRenderer.render`
  (src/app/services/video_renderer.py, lines 94-135),
* `VideoRenderer._adjust_script_timings` (src/app/services/video_renderer.py),
* `JobQueue.update_job` (src/app/app/utils/job_queue.py) and the
  sequences of job-record updates performed by the three execution paths
  (src/app/routers/render.py, src/app/routers/auto_compose.py),

and proves the claims of the specification about them.  Python floats are
modelled as rationals, Python `sorted(set(...))` as sort-after-dedup,
and Python `max`/`min`/`min(..., key=...)` on non-empty lists as left
folds with the same first-occurrence tie behaviour.
-/

namespace HydraCompose

/-! ### Beat synchronization engine (src/app/app/services/beat_sync.py) -/

/-- Constant `MIN_IMAGE_DURATION = 2.0` from beat_sync.py line 8. -/
def MIN_IMAGE_DURATION : ℚ := 2

/-- The `cut_style` literal `"fast" | "medium" | "slow"`. -/
inductive CutStyle
  | fast
  | medium
  | slow
deriving DecidableEq, Repr

/-- Python `max(l)` for a non-empty list (0 for the empty list, never used there). -/
def listMax : List ℚ → ℚ
  | [] => 0
  | x :: xs => xs.foldl max x

/-- Python `min(l)` for a non-empty list (0 for the empty list, never used there). -/
def listMin : List ℚ → ℚ
  | [] => 0
  | x :: xs => xs.foldl min x

/-- Python `min(l, key=lambda b: abs(b - ideal))` for a non-empty list:
the first element attaining the minimal distance to `ideal`. -/
def argminAbs (ideal : ℚ) : List ℚ → ℚ
  | [] => 0
  | x :: xs => xs.foldl (fun best b => if |b - ideal| < |best - ideal| then b else best) x

/-- One iteration of the cut-selection loop of `calculate_cuts`
(beat_sync.py lines 60-101), instrumented with a flag that records
whether the cut was chosen from the beat candidates (`true`) or forced
to a constraint boundary (`false`, the `if not valid_candidates` branch). -/
def chooseCut (cutStyle : CutStyle) (validBeats : List ℚ)
    (idealCut minCut maxCut prevCut : ℚ) : ℚ × Bool :=
  let validCandidates :=
    validBeats.filter (fun b => decide (minCut ≤ b ∧ b ≤ maxCut ∧ prevCut < b))
  if validCandidates = [] then
    (min (max minCut idealCut) maxCut, false)
  else
    match cutStyle with
    | .fast =>
      let candidatesBefore := validCandidates.filter (fun b => decide (b ≤ idealCut))
      if candidatesBefore = [] then (listMin validCandidates, true)
      else (listMax candidatesBefore, true)
    | .slow =>
      let candidatesAfter := validCandidates.filter (fun b => decide (idealCut ≤ b))
      if candidatesAfter = [] then (listMax validCandidates, true)
      else (listMin candidatesAfter, true)
    | .medium => (argminAbs idealCut validCandidates, true)

/-- The loop `for i in range(1, num_images)` of `calculate_cuts`
(beat_sync.py lines 60-101): `k` is the number of remaining iterations,
`i` the current cut index, `prevCut` the last chosen cut point
(`cut_points[-1]`).  Returns the chosen cut points (indices
`1 .. num_images - 1`) with their chosen-from-beats flags. -/
def buildCuts (cutStyle : CutStyle) (validBeats : List ℚ)
    (numImages : ℕ) (targetDuration : ℚ) : ℕ → ℕ → ℚ → List (ℚ × Bool)
  | 0, _, _ => []
  | k + 1, i, prevCut =>
    let idealDuration := targetDuration / numImages
    let idealCut := idealDuration * i
    let minCut := prevCut + MIN_IMAGE_DURATION
    let remainingImages : ℕ := numImages - i
    let maxCut := targetDuration - (remainingImages : ℚ) * MIN_IMAGE_DURATION
    let c := chooseCut cutStyle validBeats idealCut minCut maxCut prevCut
    c :: buildCuts cutStyle validBeats numImages targetDuration k (i + 1) c.1

/-- Method `BeatSyncEngine._even_distribution` (beat_sync.py lines 115-125). -/
def even_distribution (numImages : ℕ) (targetDuration : ℚ) : List (ℚ × ℚ) :=
  let durationPerImage := targetDuration / numImages
  (List.range numImages).map
    (fun (i : ℕ) => ((i : ℚ) * durationPerImage, ((i : ℚ) + 1) * durationPerImage))

/-- Computation `valid_beats = sorted(set([0.0] + [t for t in beat_times if 0 < t < target_duration]
+ [target_duration]))` (beat_sync.py lines 42-46). -/
def validBeatsOf (beatTimes : List ℚ) (targetDuration : ℚ) : List ℚ :=
  List.insertionSort (· ≤ ·)
    (((0 : ℚ) :: beatTimes.filter (fun t => decide (0 < t ∧ t < targetDuration))
      ++ [targetDuration]).dedup)

/-- The full cut-point sequence `cut_points` (length `num_images + 1`):
`[0.0]`, the loop-chosen cuts, then `target_duration`
(beat_sync.py lines 58, 101, 104). -/
def cutPointsList (cutStyle : CutStyle) (validBeats : List ℚ)
    (numImages : ℕ) (targetDuration : ℚ) : List ℚ :=
  0 :: ((buildCuts cutStyle validBeats numImages targetDuration
          (numImages - 1) 1 0).map Prod.fst ++ [targetDuration])

/-- Method `BeatSyncEngine.calculate_cuts` (beat_sync.py lines 15-113).
`num_images : ℕ`, so the Python guard `num_images <= 0` is `numImages = 0`. -/
def calculate_cuts (beatTimes : List ℚ) (numImages : ℕ) (targetDuration : ℚ)
    (cutStyle : CutStyle) : List (ℚ × ℚ) :=
  if numImages = 0 then []
  else if beatTimes = [] then even_distribution numImages targetDuration
  else
    let validBeats := validBeatsOf beatTimes targetDuration
    if validBeats.length < numImages + 1 then even_distribution numImages targetDuration
    else
      let cutPoints := cutPointsList cutStyle validBeats numImages targetDuration
      (List.range numImages).map
        (fun i => (cutPoints.getD i 0, cutPoints.getD (i + 1) 0))

/-- Whether the right endpoint of segment `i` of `calculate_cuts` was
chosen from the beat candidate set (as opposed to being `0`,
`target_duration`, an even-distribution boundary, or a forced
constraint-boundary cut).  Recomputes the instrumented loop of
`calculate_cuts` and reads off the flag of cut point `i + 1`. -/
def segmentChosenFromBeats (beatTimes : List ℚ) (numImages : ℕ)
    (targetDuration : ℚ) (cutStyle : CutStyle) (i : ℕ) : Bool :=
  if numImages = 0 then false
  else if beatTimes = [] then false
  else
    let validBeats := validBeatsOf beatTimes targetDuration
    if validBeats.length < numImages + 1 then false
    else
      ((buildCuts cutStyle validBeats numImages targetDuration
          (numImages - 1) 1 0).getD i (0, false)).2

/-! ### Duration planning (src/app/services/video_renderer.py lines 94-135)

The duration-planning block of `VideoRenderer.render` is a pure
computation from the preset field `duration_range = (min_duration,
max_duration)`, the image count, the audio duration, and the
user-requested `settings.target_duration`.  The Python guard
`if request.settings.target_duration and request.settings.target_duration > 0`
on an `int` field is equivalent to `0 < requested`. -/

/-- Constant `IDEAL_PER_IMAGE = 3.0` (video_renderer.py line 114). -/
def IDEAL_PER_IMAGE : ℚ := 3

/-- The target duration after the user/auto branch but before the final
`target_duration < min_duration_for_images` check
(video_renderer.py lines 106-126). -/
def planPreTarget (minDuration maxDuration : ℚ) (numImages : ℕ)
    (audioDuration requestedDuration : ℚ) : ℚ :=
  let minDurationForImages := (numImages : ℚ) * MIN_IMAGE_DURATION
  if 0 < requestedDuration then
    min (min (max minDurationForImages requestedDuration) audioDuration) maxDuration
  else
    let idealDuration := (numImages : ℚ) * IDEAL_PER_IMAGE
    min (min (max (max minDuration minDurationForImages) idealDuration) maxDuration)
      audioDuration

/-- Whether the final forced-floor check fires
(`if target_duration < min_duration_for_images`, video_renderer.py line 128):
the rule-4 escape hatch of the duration planner. -/
def planHatchFires (minDuration maxDuration : ℚ) (numImages : ℕ)
    (audioDuration requestedDuration : ℚ) : Prop :=
  planPreTarget minDuration maxDuration numImages audioDuration requestedDuration <
    (numImages : ℚ) * MIN_IMAGE_DURATION

instance (minDuration maxDuration : ℚ) (numImages : ℕ)
    (audioDuration requestedDuration : ℚ) :
    Decidable (planHatchFires minDuration maxDuration numImages
      audioDuration requestedDuration) := by
  unfold planHatchFires; infer_instance

/-- The planned target duration (video_renderer.py lines 106-130),
including the forced-floor escape hatch
`target_duration = min(min_duration_for_images, audio_duration)`. -/
def planTargetDuration (minDuration maxDuration : ℚ) (numImages : ℕ)
    (audioDuration requestedDuration : ℚ) : ℚ :=
  let minDurationForImages := (numImages : ℚ) * MIN_IMAGE_DURATION
  let pre := planPreTarget minDuration maxDuration numImages audioDuration requestedDuration
  if pre < minDurationForImages then min minDurationForImages audioDuration else pre

/-- The fields of a style preset used by the render pipeline
(src/app/app/presets/base.py): pacing style and duration range. -/
structure VibePreset where
  cutStyle : CutStyle
  minDuration : ℚ
  maxDuration : ℚ
deriving DecidableEq, Repr

/-- Preset `EXCITING_PRESET`: `cut_style="fast"`, `duration_range=(10, 15)`. -/
def EXCITING_PRESET : VibePreset := ⟨.fast, 10, 15⟩

/-- Preset `EMOTIONAL_PRESET`: `cut_style="slow"`, `duration_range=(20, 30)`. -/
def EMOTIONAL_PRESET : VibePreset := ⟨.slow, 20, 30⟩

/-- Preset `POP_PRESET`: `cut_style="medium"`, `duration_range=(15, 20)`. -/
def POP_PRESET : VibePreset := ⟨.medium, 15, 20⟩

/-- Preset `MINIMAL_PRESET`: `cut_style="medium"`, `duration_range=(15, 25)`. -/
def MINIMAL_PRESET : VibePreset := ⟨.medium, 15, 25⟩

/-! ### Caption retiming (`VideoRenderer._adjust_script_timings`,
src/app/services/video_renderer.py lines 436-519) -/

/-- A script line (src/app/app/models/render_job.py): text, start time
(`timing`), display duration. -/
structure ScriptLine where
  text : String
  timing : ℚ
  duration : ℚ
deriving DecidableEq, Repr

/-- Constant `SUBTITLE_GAP = 0.5` (video_renderer.py line 455). -/
def SUBTITLE_GAP : ℚ := 1 / 2

/-- Constant `MIN_SUBTITLE_DURATION = 1.5` (video_renderer.py line 456). -/
def MIN_SUBTITLE_DURATION : ℚ := 3 / 2

/-- Constant `MAX_SUBTITLE_DURATION = 4.0` (video_renderer.py line 457). -/
def MAX_SUBTITLE_DURATION : ℚ := 4

/-- The sequential layout loop of `_adjust_script_timings`
(video_renderer.py lines 485-506): `currentTime` is the running
`current_time`; a line whose truncated duration falls below 1 second is
skipped without advancing `current_time`. -/
def layoutLines (videoDuration dps gap : ℚ) :
    List ScriptLine → ℚ → List ScriptLine
  | [], _ => []
  | line :: rest, currentTime =>
    let timing := currentTime
    let duration := dps
    if videoDuration - 3 / 10 < timing + duration then
      let truncated := videoDuration - timing - 3 / 10
      if truncated < 1 then layoutLines videoDuration dps gap rest currentTime
      else
        ⟨line.text, timing, truncated⟩ ::
          layoutLines videoDuration dps gap rest (timing + truncated + gap)
    else
      ⟨line.text, timing, duration⟩ ::
        layoutLines videoDuration dps gap rest (timing + duration + gap)

/-- Method `VideoRenderer._adjust_script_timings` (video_renderer.py lines 436-519),
on the list of script lines.  The `num_lines == 1` branch is lines
461-468; the `else` branch computes the even duration, the possibly
shrunk gap, and lays lines out sequentially from `0.3`. -/
def adjust_script_timings (lines : List ScriptLine) (videoDuration : ℚ) :
    List ScriptLine :=
  match lines with
  | [] => []
  | [line] =>
    [⟨line.text, 1 / 2, min (videoDuration - 1) MAX_SUBTITLE_DURATION⟩]
  | _ =>
    let numLines := lines.length
    let totalAvailable := videoDuration - 1 / 2
    let totalGaps := ((numLines : ℚ) - 1) * SUBTITLE_GAP
    let totalSubtitleTime := totalAvailable - totalGaps
    let durationEven :=
      max MIN_SUBTITLE_DURATION
        (min MAX_SUBTITLE_DURATION (totalSubtitleTime / (numLines : ℚ)))
    let needShrink := totalAvailable < durationEven * (numLines : ℚ) + totalGaps
    let dps := if needShrink then MIN_SUBTITLE_DURATION else durationEven
    let gap :=
      if needShrink then
        max (1 / 5)
          ((totalAvailable - MIN_SUBTITLE_DURATION * (numLines : ℚ)) /
            max 1 ((numLines : ℚ) - 1))
      else SUBTITLE_GAP
    layoutLines videoDuration dps gap lines (3 / 10)

/-! ### Job record store (src/app/app/utils/job_queue.py) -/

/-- Enum `JobStatus` (src/app/app/models/responses.py). -/
inductive JStatus
  | queued
  | processing
  | completed
  | failed
deriving DecidableEq, Repr

/-- The stored job record fields touched by `update_job`
(job_queue.py lines 76-127); `metadata` is an arbitrary string map. -/
structure JobRecord where
  status : JStatus
  progress : ℕ
  currentStep : String
  outputUrl : Option String
  error : Option String
  metadata : Option (List (String × String))
deriving DecidableEq, Repr

/-- The keyword arguments of `JobQueue.update_job`
(job_queue.py lines 92-101); `none` means the argument was not passed
(Python `None`). -/
structure UpdateArgs where
  status : Option JStatus := none
  progress : Option ℕ := none
  currentStep : Option String := none
  outputUrl : Option String := none
  error : Option String := none
  metadata : Option (List (String × String)) := none
deriving DecidableEq, Repr

/-- The field updates of `update_job` (job_queue.py lines 107-119) on an
existing record.  Python truthiness: `if status:` is true for every
status enum value; `if progress is not None:` accepts 0; `if
current_step:`, `if output_url:`, `if error:` reject the empty string;
`if metadata:` rejects an empty map. -/
def applyUpdate (r : JobRecord) (u : UpdateArgs) : JobRecord :=
  { status := match u.status with
      | some s => s
      | none => r.status
    progress := match u.progress with
      | some p => p
      | none => r.progress
    currentStep := match u.currentStep with
      | some s => if s = "" then r.currentStep else s
      | none => r.currentStep
    outputUrl := match u.outputUrl with
      | some s => if s = "" then r.outputUrl else some s
      | none => r.outputUrl
    error := match u.error with
      | some s => if s = "" then r.error else some s
      | none => r.error
    metadata := match u.metadata with
      | some m => if m = [] then r.metadata else some m
      | none => r.metadata }

/-- The job store: an association of job ids to records (the Redis keys
`compose:job:{job_id}` or the `InMemoryJobStore` dict). -/
def Store : Type := List (String × JobRecord)

/-- Method `get_job` (job_queue.py lines 129-134). -/
def storeGet (s : Store) (jobId : String) : Option JobRecord :=
  (List.find? (fun p => p.1 == jobId) s).map Prod.snd

/-- Redis `set` / dict assignment: replace the record if the key exists,
insert it otherwise. -/
def storeSet (s : Store) (jobId : String) (r : JobRecord) : Store :=
  match s with
  | [] => [(jobId, r)]
  | p :: rest =>
    if p.1 == jobId then (jobId, r) :: rest else p :: storeSet rest jobId r

/-- Method `JobQueue.update_job` (job_queue.py lines 92-127): read the record;
if it is missing (`if not job_data: return`) do nothing, otherwise apply
the field updates and write the record back. -/
def update_job (s : Store) (jobId : String) (u : UpdateArgs) : Store :=
  match storeGet s jobId with
  | none => s
  | some r => storeSet s jobId (applyUpdate r u)

/-- Method `create_job` (job_queue.py lines 76-90): the freshly stored record. -/
def initialRecord : JobRecord :=
  { status := .queued
    progress := 0
    currentStep := "Queued"
    outputUrl := none
    error := none
    metadata := none }

/-! ### Job-record update sequences of the execution paths
(src/app/routers/render.py, src/app/routers/auto_compose.py)

Each execution path performs a sequence of `update_job` calls on its own
job id.  The traces below list the `UpdateArgs` of those calls, in
program order, for every possible control flow: a `failure`/`failsAt`
outcome truncates the planned updates at an arbitrary point (covering
every early-return failure branch and every exception caught by the
`except` handler) and appends the failure update. -/

/-- A progress-only `update_job` call (no status argument). -/
def progressUpd (p : ℕ) (step : String) : UpdateArgs :=
  { progress := some p, currentStep := some step }

/-- The `(progress, step)` values passed to the progress callback by
`VideoRenderer.render` (video_renderer.py lines 76-366) for `k` images,
in call order.  The per-image value is `30 + int(25 * (i + 1) / k)`. -/
def renderProgressEvents (k : ℕ) : List (ℕ × String) :=
  [(0, "Downloading images"), (10, "Downloading audio"),
   (15, "Analyzing audio beats"), (20, "Calculating cut timings"),
   (25, "Processing images"), (30, "Creating image clips")] ++
  (List.range k).map
    (fun i => (30 + 25 * (i + 1) / k,
      "Processing image " ++ toString (i + 1) ++ "/" ++ toString k)) ++
  [(55, "Applying transitions"), (65, "Adding text overlays"),
   (75, "Adding audio track"), (80, "Applying color grading"),
   (85, "Rendering final video"), (95, "Uploading to storage"),
   (100, "Completed")]

/-- The completion update shared by the local and Modal paths
(render.py lines 42-48 and 169-175). -/
def renderCompletedUpd (url : String) : UpdateArgs :=
  { status := some .completed, progress := some 100,
    currentStep := some "Completed", outputUrl := some url }

/-- The failure update (render.py lines 52-56 and analogous branches):
status `failed` with the error message. -/
def renderFailedUpd (e : String) : UpdateArgs :=
  { status := some .failed, error := some e }

/-- The updates of a fully successful `process_render_job` run before
the completion update (render.py lines 22-39). -/
def plannedLocalUpdates (k : ℕ) : List UpdateArgs :=
  { status := some .processing, progress := some 0,
    currentStep := some "Starting render" } ::
  (renderProgressEvents k).map (fun e => progressUpd e.1 e.2)

/-- How a `process_render_job` execution ends: success with an output
URL, or a failure/exception after `updatesDone` of the planned updates. -/
inductive RenderOutcome
  | success (url : String)
  | failure (updatesDone : ℕ) (err : String)

/-- The `update_job` call sequence of `process_render_job`
(render.py lines 18-56). -/
def processRenderJobTrace (k : ℕ) : RenderOutcome → List UpdateArgs
  | .success url => plannedLocalUpdates k ++ [renderCompletedUpd url]
  | .failure j e => (plannedLocalUpdates k).take j ++ [renderFailedUpd e]

/-- The initial update of `process_modal_render_job`
(render.py lines 128-133). -/
def modalStartUpd : UpdateArgs :=
  { status := some .processing, progress := some 0,
    currentStep := some "Submitting to Modal cloud" }

/-- The post-submit update of `process_modal_render_job`
(render.py lines 153-158), carrying the Modal call id as metadata. -/
def modalSubmittedUpd (callId : String) (useGpu : Bool) : UpdateArgs :=
  { progress := some 5, currentStep := some "Processing on Modal cloud",
    metadata := some [("modal_call_id", callId),
                      ("use_gpu", toString useGpu)] }

/-- One still-processing poll update of `process_modal_render_job`
(render.py lines 196-202): `progress = min(90, 5 + polls * 85 // 200)`. -/
def modalPollUpd (useGpu : Bool) (polls : ℕ) : UpdateArgs :=
  progressUpd (min 90 (5 + polls * 85 / 200))
    (if useGpu then "Rendering on Modal cloud (GPU)"
     else "Rendering on Modal cloud (CPU)")

/-- The updates of a `process_modal_render_job` run before its final
update (render.py lines 119-204): start, the post-submit progress-5
update, then one still-processing update per poll (the loop allows at
most 200 of them). -/
def plannedModalUpdates (callId : String) (useGpu : Bool) : List UpdateArgs :=
  modalStartUpd :: modalSubmittedUpd callId useGpu ::
    (List.range 200).map (modalPollUpd useGpu)

/-- The completion update of the Modal path (render.py lines 169-175):
`output_url` comes from the Modal poll result and may be `None`. -/
def modalCompletedUpd (url : Option String) : UpdateArgs :=
  { status := some .completed, progress := some 100,
    currentStep := some "Completed", outputUrl := url }

/-- How a `process_modal_render_job` execution ends: completion after
`polls` still-processing polls, or failure (submit error, poll
failure/error, timeout, or exception) after `updatesDone` planned
updates. -/
inductive ModalOutcome
  | completes (polls : ℕ) (url : Option String)
  | failsAt (updatesDone : ℕ) (err : String)

/-- The `update_job` call sequence of `process_modal_render_job`
(render.py lines 119-220). -/
def processModalRenderJobTrace (callId : String) (useGpu : Bool) :
    ModalOutcome → List UpdateArgs
  | .completes polls url =>
    (plannedModalUpdates callId useGpu).take (2 + polls) ++ [modalCompletedUpd url]
  | .failsAt j e =>
    (plannedModalUpdates callId useGpu).take j ++ [renderFailedUpd e]

/-- The queued update of `process_auto_compose` while waiting for the
render semaphore (auto_compose.py lines 95-101). -/
def autoQueuedUpd : UpdateArgs :=
  { status := some .queued, progress := some 0,
    currentStep := some "Waiting for render slot..." }

/-- The processing update of `process_auto_compose`
(auto_compose.py lines 110-116). -/
def autoProcessingUpd : UpdateArgs :=
  { status := some .processing, progress := some 5,
    currentStep := some "Searching images..." }

/-- The updates of a fully successful `process_auto_compose` run before
its completion update (auto_compose.py lines 91-344): the queued update
(only when a render semaphore is configured), the processing update,
the progress 20/30/40 updates, then the renderer callbacks mapped to
`40 + int(progress * 0.6)`. -/
def plannedAutoUpdates (hasSemaphore : Bool) (foundImages verifiedImages k : ℕ) :
    List UpdateArgs :=
  (if hasSemaphore then [autoQueuedUpd] else []) ++
  autoProcessingUpd ::
  progressUpd 20 ("Found " ++ toString foundImages ++
    " images. Verifying accessibility...") ::
  progressUpd 30 ("Verified " ++ toString verifiedImages ++
    " images. Preparing render...") ::
  progressUpd 40 "Rendering video..." ::
  (renderProgressEvents k).map (fun e => progressUpd (40 + 3 * e.1 / 5) e.2)

/-- The completion update of `process_auto_compose`
(auto_compose.py lines 348-363), with its metadata map. -/
def autoCompletedUpd (url : String) (meta : List (String × String)) : UpdateArgs :=
  { status := some .completed, progress := some 100,
    currentStep := some "Completed", outputUrl := some url,
    metadata := some meta }

/-- How a `process_auto_compose` execution ends. -/
inductive AutoOutcome
  | success (url : String) (meta : List (String × String))
  | failure (updatesDone : ℕ) (err : String)

/-- The `update_job` call sequence of `process_auto_compose`
(auto_compose.py lines 80-387); failure updates (`status="failed"` plus
the error message) end every non-success flow. -/
def processAutoComposeTrace (hasSemaphore : Bool)
    (foundImages verifiedImages k : ℕ) : AutoOutcome → List UpdateArgs
  | .success url meta =>
    plannedAutoUpdates hasSemaphore foundImages verifiedImages k ++
      [autoCompletedUpd url meta]
  | .failure j e =>
    (plannedAutoUpdates hasSemaphore foundImages verifiedImages k).take j ++
      [renderFailedUpd e]

/-- The claim-C7 safety property of an update sequence, evaluated
against the stored record: every update made from a terminal
(`completed`/`failed`) record leaves the status unchanged, and every
update made from a `processing` record that stays `processing` does not
decrease the stored progress. -/
def TraceOK : JobRecord → List UpdateArgs → Prop
  | _, [] => True
  | r, u :: us =>
    ((r.status = .completed ∨ r.status = .failed) →
      (applyUpdate r u).status = r.status) ∧
    (r.status = .processing → (applyUpdate r u).status = .processing →
      r.progress ≤ (applyUpdate r u).progress) ∧
    TraceOK (applyUpdate r u) us

/-- Method `delete_job` (job_queue.py lines 151-153) / `cancel_job`
(src/app/app/routers/jobs.py lines 30-43): remove the record. -/
def storeDelete (s : Store) (jobId : String) : Store :=
  s.filter (fun p => !(p.1 == jobId))

/-- Specification predicate for the cut-selection loop: walking the
instrumented cut list from the previous cut point `prev`, every cut
whose flag is `true` (chosen from the beat candidates) lies at least
`MIN_IMAGE_DURATION` after its predecessor. -/
def CutChainOK : ℚ → List (ℚ × Bool) → Prop
  | _, [] => True
  | prev, c :: rest =>
    (c.2 = true → prev + MIN_IMAGE_DURATION ≤ c.1) ∧ CutChainOK c.1 rest

/-! ## General list helpers -/

theorem getD_map_range {α : Type} (f : ℕ → α) {n i : ℕ} (h : i < n) (d : α) :
    ((List.range n).map f).getD i d = f i := by
  rw [List.getD_eq_getElem?_getD, List.getElem?_map, List.getElem?_range h]
  rfl

/-! ## Claim C9: updates to a deleted or missing job record are no-ops -/

theorem storeGet_delete (s : Store) (jobId : String) :
    storeGet (storeDelete s jobId) jobId = none := by
  unfold storeGet storeDelete
  rw [List.find?_eq_none.mpr]
  · rfl
  · intro p hp
    rcases List.mem_filter.mp hp with ⟨-, hkeep⟩
    simpa using hkeep

/-- Claim C9: for every job id whose record has been deleted (or never
existed), every subsequent `update_job` call, with any combination of
arguments, leaves the store entirely unchanged and does not recreate
the record. -/
theorem claim_C9_update_job_missing_is_noop (s : Store) (jobId : String)
    (u : UpdateArgs) :
    (storeGet s jobId = none → update_job s jobId u = s) ∧
    update_job (storeDelete s jobId) jobId u = storeDelete s jobId := by
  constructor
  · intro h
    unfold update_job
    rw [h]
  · unfold update_job
    rw [storeGet_delete]

/-- Witness for claim C9 at a concrete store: a deleted record stays
absent under a full status/progress/output/error update. -/
theorem claim_C9_witness :
    update_job [] "job-1"
        { status := some JStatus.failed, progress := some 50,
          currentStep := some "late write", error := some "backend finished late" } =
      [] ∧
    update_job (storeDelete [("job-1", initialRecord)] "job-1") "job-1"
        { status := some JStatus.completed, outputUrl := some "https://x/out.mp4" } =
      storeDelete [("job-1", initialRecord)] "job-1" := by
  exact ⟨(claim_C9_update_job_missing_is_noop [] "job-1" _).1 rfl,
    (claim_C9_update_job_missing_is_noop [("job-1", initialRecord)] "job-1" _).2⟩

/-! ## Claim C8: error/output fields of terminal records -/

/-- Counterexample to claim C8: a message-less exception (`str(e) = ""`)
produces the failure update `update_job(..., status=FAILED, error="")`;
the guard `if error:` in `update_job` drops the empty string, so the stored
record is Failed with no error value at all. -/
theorem claim_C8_counterexample :
    (applyUpdate (JobRecord.mk .processing 5 "Rendering" none none none)
        (renderFailedUpd "")).status = JStatus.failed ∧
    (applyUpdate (JobRecord.mk .processing 5 "Rendering" none none none)
        (renderFailedUpd "")).error = none :=
  ⟨rfl, rfl⟩

/-- Claim C8 (amended): a failure update carries its message into the
stored record whenever the message is non-empty, and a completion
update carries its output reference whenever the URL is non-empty; an
empty `str(e)` leaves the error field unset. -/
theorem claim_C8_amended (r : JobRecord) (e url : String)
    (he : e ≠ "") (hu : url ≠ "") :
    (applyUpdate r (renderFailedUpd e)).status = .failed ∧
    (applyUpdate r (renderFailedUpd e)).error = some e ∧
    (applyUpdate r (renderCompletedUpd url)).status = .completed ∧
    (applyUpdate r (renderCompletedUpd url)).outputUrl = some url := by
  refine ⟨rfl, ?_, rfl, ?_⟩ <;>
    simp [applyUpdate, renderFailedUpd, renderCompletedUpd, he, hu]

/-- Witness for claim C8 (amended) at a concrete record and messages. -/
theorem claim_C8_witness :
    (applyUpdate initialRecord (renderFailedUpd "boom")).error = some "boom" ∧
    (applyUpdate initialRecord
        (renderCompletedUpd "https://bucket/out.mp4")).outputUrl =
      some "https://bucket/out.mp4" :=
  ⟨(claim_C8_amended initialRecord "boom" "https://bucket/out.mp4"
      (by decide) (by decide)).2.1,
   (claim_C8_amended initialRecord "boom" "https://bucket/out.mp4"
      (by decide) (by decide)).2.2.2⟩

/-! ## Claim C10: single caption line -/

/-- Claim C10: with exactly one caption line, `_adjust_script_timings`
always returns exactly one line starting at 0.5 with duration
`min(video_duration - 1.0, 4.0)`; for `video_duration ≤ 1` that
duration is zero or negative (the 1-second drop rule is not applied). -/
theorem claim_C10_single_line (videoDuration : ℚ) (line : ScriptLine) :
    adjust_script_timings [line] videoDuration =
      [ScriptLine.mk line.text (1 / 2) (min (videoDuration - 1) 4)] ∧
    (videoDuration ≤ 1 → min (videoDuration - 1) 4 ≤ 0) := by
  refine ⟨rfl, fun h => le_trans (min_le_left _ _) (by linarith)⟩

/-- Witness for claim C10 at `video_duration = 1/2`: the emitted line
has negative duration. -/
theorem claim_C10_witness :
    adjust_script_timings [ScriptLine.mk "hook" 0 3] (1 / 2) =
      [ScriptLine.mk "hook" (1 / 2) (min ((1 : ℚ) / 2 - 1) 4)] ∧
    min ((1 : ℚ) / 2 - 1) 4 ≤ 0 :=
  ⟨(claim_C10_single_line (1 / 2) (ScriptLine.mk "hook" 0 3)).1,
   (claim_C10_single_line (1 / 2) (ScriptLine.mk "hook" 0 3)).2 (by norm_num)⟩

/-! ## Claim C2: duration-planner bounds -/

theorem planPreTarget_le_audio (minDuration maxDuration : ℚ) (numImages : ℕ)
    (audioDuration requestedDuration : ℚ) :
    planPreTarget minDuration maxDuration numImages audioDuration requestedDuration ≤
      audioDuration := by
  unfold planPreTarget
  split_ifs
  · exact le_trans (min_le_left _ _) (min_le_right _ _)
  · exact min_le_right _ _

/-- Claim C2: for every preset range, positive image count,
non-negative audio duration and requested duration, the planned target
lies in `[0, audio_duration]`; it is at least the
`image_count * MIN_IMAGE_DURATION` floor when the audio is long enough,
and otherwise equals `min(image_count * MIN_IMAGE_DURATION,
audio_duration)`. -/
theorem claim_C2_duration_planner_bounds (minDuration maxDuration : ℚ)
    (numImages : ℕ) (audioDuration requestedDuration : ℚ)
    (hn : 0 < numImages) (ha : 0 ≤ audioDuration) :
    0 ≤ planTargetDuration minDuration maxDuration numImages audioDuration
        requestedDuration ∧
    planTargetDuration minDuration maxDuration numImages audioDuration
        requestedDuration ≤ audioDuration ∧
    ((numImages : ℚ) * MIN_IMAGE_DURATION ≤ audioDuration →
      (numImages : ℚ) * MIN_IMAGE_DURATION ≤
        planTargetDuration minDuration maxDuration numImages audioDuration
          requestedDuration) ∧
    (audioDuration < (numImages : ℚ) * MIN_IMAGE_DURATION →
      planTargetDuration minDuration maxDuration numImages audioDuration
          requestedDuration =
        min ((numImages : ℚ) * MIN_IMAGE_DURATION) audioDuration) := by
  have hfloor : (0 : ℚ) ≤ (numImages : ℚ) * MIN_IMAGE_DURATION := by
    unfold MIN_IMAGE_DURATION; positivity
  have hpre := planPreTarget_le_audio minDuration maxDuration numImages
    audioDuration requestedDuration
  simp only [planTargetDuration]
  split_ifs with h
  · refine ⟨le_min hfloor ha, min_le_right _ _, fun hfl => (min_eq_left hfl).ge,
      fun _ => rfl⟩
  · push_neg at h
    exact ⟨le_trans hfloor h, hpre, fun _ => h, fun hlt => absurd (h.trans hpre) (by linarith)⟩

/-- Witness for claim C2 at a concrete instance (the Pop preset range,
5 images, 30 seconds of audio, no user-requested duration). -/
theorem claim_C2_witness :
    0 ≤ planTargetDuration 15 20 5 30 0 ∧
    planTargetDuration 15 20 5 30 0 ≤ 30 ∧
    (((5 : ℕ) : ℚ) * MIN_IMAGE_DURATION ≤ 30 →
      ((5 : ℕ) : ℚ) * MIN_IMAGE_DURATION ≤ planTargetDuration 15 20 5 30 0) ∧
    ((30 : ℚ) < ((5 : ℕ) : ℚ) * MIN_IMAGE_DURATION →
      planTargetDuration 15 20 5 30 0 =
        min (((5 : ℕ) : ℚ) * MIN_IMAGE_DURATION) 30) :=
  claim_C2_duration_planner_bounds 15 20 5 30 0 (by norm_num) (by norm_num)

/-! ## Claim C6: the 6-image, 10-second-request scenario -/

theorem planPreTarget_six_ten (minDuration maxDuration audioDuration : ℚ) :
    planPreTarget minDuration maxDuration 6 audioDuration 10 =
      min (min 12 audioDuration) maxDuration := by
  unfold planPreTarget
  rw [if_pos (by norm_num)]
  norm_num [MIN_IMAGE_DURATION]

/-- Counterexample to claim C6: with the Pop preset and 30 seconds of
audio, a 10-second request and 6 images yield the target
`min(12, 30) = 12` without the escape hatch firing (the clamped target
is exactly the floor, and the check `target < min_required` is strict). -/
theorem claim_C6_counterexample :
    planTargetDuration POP_PRESET.minDuration POP_PRESET.maxDuration 6 30 10 =
      min 12 30 ∧
    ¬ planHatchFires POP_PRESET.minDuration POP_PRESET.maxDuration 6 30 10 := by
  have h12 : ((6 : ℕ) : ℚ) * MIN_IMAGE_DURATION = 12 := by
    norm_num [MIN_IMAGE_DURATION]
  constructor
  · simp only [planTargetDuration, POP_PRESET]
    rw [planPreTarget_six_ten, h12]
    norm_num
  · simp only [planHatchFires, POP_PRESET]
    rw [planPreTarget_six_ten, h12]
    norm_num

/-- Claim C6 (amended): for 6 images and a requested duration of 10
seconds the planned target equals `min(12, audio_duration)` for every
preset range and every audio duration; the escape hatch fires exactly
when the clamped pre-target `min(min(12, audio_duration),
preset.max_duration)` is strictly below the 12-second floor (so it does
not fire when audio and preset allow the floor exactly). -/
theorem claim_C6_amended (minDuration maxDuration audioDuration : ℚ) :
    planTargetDuration minDuration maxDuration 6 audioDuration 10 =
      min 12 audioDuration ∧
    (planHatchFires minDuration maxDuration 6 audioDuration 10 ↔
      min (min 12 audioDuration) maxDuration < 12) := by
  have h12 : ((6 : ℕ) : ℚ) * MIN_IMAGE_DURATION = 12 := by
    norm_num [MIN_IMAGE_DURATION]
  have h1 : min (min 12 audioDuration) maxDuration ≤ min 12 audioDuration :=
    min_le_left _ _
  have h2 : min 12 audioDuration ≤ 12 := min_le_left _ _
  constructor
  · simp only [planTargetDuration]
    rw [planPreTarget_six_ten, h12]
    split_ifs with h
    · rfl
    · push_neg at h
      have hmin : min (12 : ℚ) audioDuration = 12 := le_antisymm h2 (h.trans h1)
      have h3 : min (min (12 : ℚ) audioDuration) maxDuration ≤ maxDuration :=
        min_le_right _ _
      rw [hmin]
      exact min_eq_left (by linarith)
  · unfold planHatchFires
    rw [planPreTarget_six_ten, h12]

/-! ## Claim C5: even-distribution fallback -/

/-- Claim C5: with no beats, or with fewer than `image_count + 1`
distinct candidate cut points, `calculate_cuts` returns the perfectly
even segmentation with boundaries at `i * target_duration /
image_count`; in particular, no beats, 4 images and a 12-second target
give exactly `[(0,3),(3,6),(6,9),(9,12)]`. -/
theorem claim_C5_even_distribution_fallback (bts : List ℚ) (n : ℕ) (td : ℚ)
    (style : CutStyle) (hn : 0 < n)
    (h : bts = [] ∨ (validBeatsOf bts td).length < n + 1) :
    calculate_cuts bts n td style = even_distribution n td ∧
    (∀ i, i < n → (calculate_cuts bts n td style).getD i (0, 0) =
      ((i : ℚ) * (td / (n : ℚ)), ((i : ℚ) + 1) * (td / (n : ℚ)))) ∧
    calculate_cuts [] 4 12 style = [(0, 3), (3, 6), (6, 9), (9, 12)] := by
  have heq : calculate_cuts bts n td style = even_distribution n td := by
    unfold calculate_cuts
    rcases h with h | h
    · simp [hn.ne', h]
    · by_cases hb : bts = []
      · simp [hn.ne', hb]
      · simp [hn.ne', hb, h]
  refine ⟨heq, ?_, ?_⟩
  · intro i hi
    rw [heq]
    unfold even_distribution
    rw [getD_map_range _ hi]
  · have h4 : calculate_cuts [] 4 12 style = even_distribution 4 12 := by
      unfold calculate_cuts
      norm_num
    rw [h4]
    unfold even_distribution
    norm_num [List.range_succ]

/-- Witness for claim C5 with no beats, 4 images, 12-second target. -/
theorem claim_C5_witness :
    calculate_cuts [] 4 12 .medium = even_distribution 4 12 ∧
    calculate_cuts [] 4 12 .medium = [(0, 3), (3, 6), (6, 9), (9, 12)] :=
  ⟨(claim_C5_even_distribution_fallback [] 4 12 .medium (by norm_num)
      (Or.inl rfl)).1,
   (claim_C5_even_distribution_fallback [] 4 12 .medium (by norm_num)
      (Or.inl rfl)).2.2⟩

/-! ## Claim C4: caption retiming invariants -/

theorem layoutLines_length_le (vd dps gap : ℚ) :
    ∀ (ls : List ScriptLine) (ct : ℚ),
      (layoutLines vd dps gap ls ct).length ≤ ls.length := by
  intro ls
  induction ls with
  | nil => intro ct; simp [layoutLines]
  | cons l rest ih =>
    intro ct
    simp only [layoutLines]
    split_ifs with h1 h2
    · exact le_trans (ih ct) (Nat.le_succ _)
    · simpa using Nat.succ_le_succ (ih _)
    · simpa using Nat.succ_le_succ (ih _)

theorem layoutLines_chain (vd dps gap : ℚ) (hdps : 0 ≤ dps) (hgap : 0 ≤ gap) :
    ∀ (ls : List ScriptLine) (ct : ℚ),
      List.Chain' (fun a b => a.timing + a.duration ≤ b.timing)
        (layoutLines vd dps gap ls ct) ∧
      ∀ x ∈ layoutLines vd dps gap ls ct, ct ≤ x.timing := by
  intro ls
  induction ls with
  | nil => intro ct; simp [layoutLines]
  | cons l rest ih =>
    intro ct
    simp only [layoutLines]
    split_ifs with h1 h2
    · exact ih ct
    · push_neg at h2
      obtain ⟨hc, hm⟩ := ih (ct + (vd - ct - 3 / 10) + gap)
      constructor
      · refine List.chain'_cons'.mpr ⟨?_, hc⟩
        intro b hb
        have hb' := hm b (List.mem_of_mem_head? hb)
        simp only []
        linarith
      · intro x hx
        rcases List.mem_cons.mp hx with rfl | hx
        · simp
        · have := hm x hx
          linarith
    · push_neg at h1
      obtain ⟨hc, hm⟩ := ih (ct + dps + gap)
      constructor
      · refine List.chain'_cons'.mpr ⟨?_, hc⟩
        intro b hb
        have hb' := hm b (List.mem_of_mem_head? hb)
        simp only []
        linarith
      · intro x hx
        rcases List.mem_cons.mp hx with rfl | hx
        · simp
        · have := hm x hx
          linarith

/-- Claim C4: for every input script and every video duration, the
retimed lines satisfy `line[i].timing + line[i].duration ≤
line[i+1].timing` for all adjacent pairs (the sequential layout leaves
a non-negative gap), and the number of returned lines never exceeds
the number of input lines. -/
theorem claim_C4_caption_retimer_invariants (lines : List ScriptLine)
    (videoDuration : ℚ) :
    (adjust_script_timings lines videoDuration).length ≤ lines.length ∧
    List.Chain' (fun a b => a.timing + a.duration ≤ b.timing)
      (adjust_script_timings lines videoDuration) := by
  have key : ∀ (ls : List ScriptLine) (dps gap ct : ℚ), 0 ≤ dps → 0 ≤ gap →
      (layoutLines videoDuration dps gap ls ct).length ≤ ls.length ∧
      List.Chain' (fun a b => a.timing + a.duration ≤ b.timing)
        (layoutLines videoDuration dps gap ls ct) :=
    fun ls dps gap ct hd hg =>
      ⟨layoutLines_length_le videoDuration dps gap ls ct,
       (layoutLines_chain videoDuration dps gap hd hg ls ct).1⟩
  match lines with
  | [] => simp [adjust_script_timings]
  | [l] => simp [adjust_script_timings]
  | l1 :: l2 :: rest =>
    simp only [adjust_script_timings]
    refine key (l1 :: l2 :: rest) _ _ _ ?_ ?_
    · split_ifs
      · norm_num [MIN_SUBTITLE_DURATION]
      · exact le_trans (by norm_num [MIN_SUBTITLE_DURATION]) (le_max_left _ _)
    · split_ifs
      · exact le_trans (by norm_num) (le_max_left _ _)
      · norm_num [SUBTITLE_GAP]

/-! ## Python max/min/argmin fold lemmas -/

theorem foldl_max_mem (xs : List ℚ) (a : ℚ) : xs.foldl max a ∈ a :: xs := by
  induction xs generalizing a with
  | nil => simp
  | cons y ys ih =>
    simp only [List.foldl_cons]
    rcases List.mem_cons.mp (ih (max a y)) with h | h
    · rw [h]
      rcases max_choice a y with hm | hm <;> rw [hm] <;> simp
    · simp [h]

theorem le_foldl_max (xs : List ℚ) : ∀ (a x : ℚ), x ∈ a :: xs → x ≤ xs.foldl max a := by
  induction xs with
  | nil =>
    intro a x hx
    simp only [List.mem_singleton] at hx
    simp [hx]
  | cons y ys ih =>
    intro a x hx
    simp only [List.foldl_cons]
    rcases List.mem_cons.mp hx with rfl | hx
    · exact le_trans (le_max_left _ y) (ih (max x y) _ (List.mem_cons_self _ _))
    · rcases List.mem_cons.mp hx with rfl | hx
      · exact le_trans (le_max_right a _) (ih _ _ (List.mem_cons_self _ _))
      · exact ih (max a y) x (List.mem_cons_of_mem _ hx)

theorem foldl_min_mem (xs : List ℚ) (a : ℚ) : xs.foldl min a ∈ a :: xs := by
  induction xs generalizing a with
  | nil => simp
  | cons y ys ih =>
    simp only [List.foldl_cons]
    rcases List.mem_cons.mp (ih (min a y)) with h | h
    · rw [h]
      rcases min_choice a y with hm | hm <;> rw [hm] <;> simp
    · simp [h]

theorem foldl_min_le (xs : List ℚ) : ∀ (a x : ℚ), x ∈ a :: xs → xs.foldl min a ≤ x := by
  induction xs with
  | nil =>
    intro a x hx
    simp only [List.mem_singleton] at hx
    simp [hx]
  | cons y ys ih =>
    intro a x hx
    simp only [List.foldl_cons]
    rcases List.mem_cons.mp hx with rfl | hx
    · exact le_trans (ih (min x y) _ (List.mem_cons_self _ _)) (min_le_left _ y)
    · rcases List.mem_cons.mp hx with rfl | hx
      · exact le_trans (ih _ _ (List.mem_cons_self _ _)) (min_le_right a _)
      · exact ih (min a y) x (List.mem_cons_of_mem _ hx)

theorem listMax_mem {l : List ℚ} (h : l ≠ []) : listMax l ∈ l := by
  match l with
  | [] => exact absurd rfl h
  | x :: xs => exact foldl_max_mem xs x

theorem le_listMax {l : List ℚ} {x : ℚ} (h : x ∈ l) : x ≤ listMax l := by
  match l with
  | [] => simp at h
  | y :: ys => exact le_foldl_max ys y x h

theorem listMin_mem {l : List ℚ} (h : l ≠ []) : listMin l ∈ l := by
  match l with
  | [] => exact absurd rfl h
  | x :: xs => exact foldl_min_mem xs x

theorem listMin_le {l : List ℚ} {x : ℚ} (h : x ∈ l) : listMin l ≤ x := by
  match l with
  | [] => simp at h
  | y :: ys => exact foldl_min_le ys y x h

theorem foldl_argmin_mem (ideal : ℚ) (xs : List ℚ) (a : ℚ) :
    xs.foldl (fun best b => if |b - ideal| < |best - ideal| then b else best) a ∈
      a :: xs := by
  induction xs generalizing a with
  | nil => simp
  | cons y ys ih =>
    simp only [List.foldl_cons]
    rcases List.mem_cons.mp (ih (if |y - ideal| < |a - ideal| then y else a)) with h | h
    · rw [h]
      split_ifs <;> simp
    · simp [h]

theorem foldl_argmin_le (ideal : ℚ) (xs : List ℚ) :
    ∀ (a x : ℚ), x ∈ a :: xs →
      |xs.foldl (fun best b => if |b - ideal| < |best - ideal| then b else best) a -
          ideal| ≤ |x - ideal| := by
  induction xs with
  | nil =>
    intro a x hx
    simp only [List.mem_singleton] at hx
    simp [hx]
  | cons y ys ih =>
    intro a x hx
    simp only [List.foldl_cons]
    have hstep_a : |(if |y - ideal| < |a - ideal| then y else a) - ideal| ≤ |a - ideal| := by
      split_ifs with h
      · exact le_of_lt h
      · exact le_rfl
    have hstep_y : |(if |y - ideal| < |a - ideal| then y else a) - ideal| ≤ |y - ideal| := by
      split_ifs with h
      · exact le_rfl
      · exact not_lt.mp h
    rcases List.mem_cons.mp hx with rfl | hx
    · exact le_trans (ih _ _ (List.mem_cons_self _ _)) hstep_a
    · rcases List.mem_cons.mp hx with rfl | hx
      · exact le_trans (ih _ _ (List.mem_cons_self _ _)) hstep_y
      · exact ih _ x (List.mem_cons_of_mem _ hx)

theorem argminAbs_mem (ideal : ℚ) {l : List ℚ} (h : l ≠ []) : argminAbs ideal l ∈ l := by
  match l with
  | [] => exact absurd rfl h
  | x :: xs => exact foldl_argmin_mem ideal xs x

theorem argminAbs_le (ideal : ℚ) {l : List ℚ} {x : ℚ} (h : x ∈ l) :
    |argminAbs ideal l - ideal| ≤ |x - ideal| := by
  match l with
  | [] => simp at h
  | y :: ys => exact foldl_argmin_le ideal ys y x h

/-! ## chooseCut and buildCuts lemmas -/

theorem chooseCut_mem (style : CutStyle) (vb : List ℚ) (ideal minC maxC prev : ℚ)
    (h : vb.filter (fun b => decide (minC ≤ b ∧ b ≤ maxC ∧ prev < b)) ≠ []) :
    (chooseCut style vb ideal minC maxC prev).1 ∈
      vb.filter (fun b => decide (minC ≤ b ∧ b ≤ maxC ∧ prev < b)) ∧
    (chooseCut style vb ideal minC maxC prev).2 = true := by
  simp only [chooseCut]
  rw [if_neg h]
  cases style with
  | fast =>
    simp only []
    split_ifs with hb
    · exact ⟨listMin_mem h, rfl⟩
    · exact ⟨List.mem_of_mem_filter (listMax_mem hb), rfl⟩
  | slow =>
    simp only []
    split_ifs with hb
    · exact ⟨listMax_mem h, rfl⟩
    · exact ⟨List.mem_of_mem_filter (listMin_mem hb), rfl⟩
  | medium => exact ⟨argminAbs_mem _ h, rfl⟩

theorem chooseCut_forced (style : CutStyle) (vb : List ℚ) (ideal minC maxC prev : ℚ)
    (h : vb.filter (fun b => decide (minC ≤ b ∧ b ≤ maxC ∧ prev < b)) = []) :
    chooseCut style vb ideal minC maxC prev = (min (max minC ideal) maxC, false) := by
  simp only [chooseCut]
  rw [if_pos h]

theorem chooseCut_flag_min (style : CutStyle) (vb : List ℚ)
    (ideal minC maxC prev : ℚ)
    (h : (chooseCut style vb ideal minC maxC prev).2 = true) :
    minC ≤ (chooseCut style vb ideal minC maxC prev).1 := by
  by_cases hc : vb.filter (fun b => decide (minC ≤ b ∧ b ≤ maxC ∧ prev < b)) = []
  · rw [chooseCut_forced style vb ideal minC maxC prev hc] at h
    simp at h
  · have hm := (chooseCut_mem style vb ideal minC maxC prev hc).1
    have := List.mem_filter.mp hm
    simp only [decide_eq_true_eq] at this
    exact this.2.1

theorem buildCuts_length (style : CutStyle) (vb : List ℚ) (n : ℕ) (td : ℚ) :
    ∀ (k i : ℕ) (prev : ℚ), (buildCuts style vb n td k i prev).length = k := by
  intro k
  induction k with
  | zero => intro i prev; simp [buildCuts]
  | succ k ih =>
    intro i prev
    simp only [buildCuts, List.length_cons]
    rw [ih]

theorem buildCuts_chainOK (style : CutStyle) (vb : List ℚ) (n : ℕ) (td : ℚ) :
    ∀ (k i : ℕ) (prev : ℚ), CutChainOK prev (buildCuts style vb n td k i prev) := by
  intro k
  induction k with
  | zero => intro i prev; simp [buildCuts, CutChainOK]
  | succ k ih =>
    intro i prev
    simp only [buildCuts, CutChainOK]
    exact ⟨fun hf => chooseCut_flag_min style vb _ _ _ _ hf, ih (i + 1) _⟩

theorem cutChainOK_getD :
    ∀ (L : List (ℚ × Bool)) (prev : ℚ), CutChainOK prev L →
      ∀ j, (L.getD j (0, false)).2 = true →
        (if j = 0 then prev else (L.getD (j - 1) (0, false)).1) +
            MIN_IMAGE_DURATION ≤ (L.getD j (0, false)).1 := by
  intro L
  induction L with
  | nil =>
    intro prev _ j hj
    simp [List.getD_nil] at hj
  | cons c rest ih =>
    intro prev hok j hj
    obtain ⟨h1, h2⟩ := hok
    match j with
    | 0 => simpa using h1 (by simpa using hj)
    | 1 =>
      have := ih c.1 h2 0 (by simpa using hj)
      simpa using this
    | j + 2 =>
      have := ih c.1 h2 (j + 1) (by simpa using hj)
      simpa using this

/-! ## Claim C1: calculate_cuts invariants -/

theorem getD_map_fst (L : List (ℚ × Bool)) (j : ℕ) (h : j < L.length) :
    (L.map Prod.fst).getD j 0 = (L.getD j ((0 : ℚ), false)).1 := by
  rw [List.getD_eq_getElem?_getD, List.getD_eq_getElem?_getD, List.getElem?_map,
    List.getElem?_eq_getElem h]
  rfl

theorem even_distribution_props (n : ℕ) (td : ℚ) (hn : 0 < n) :
    (even_distribution n td).length = n ∧
    ((even_distribution n td).getD 0 (0, 0)).1 = 0 ∧
    ((even_distribution n td).getD (n - 1) (0, 0)).2 = td ∧
    ∀ i, i + 1 < n → ((even_distribution n td).getD i (0, 0)).2 =
      ((even_distribution n td).getD (i + 1) (0, 0)).1 := by
  have hne : (n : ℚ) ≠ 0 := Nat.cast_ne_zero.mpr hn.ne'
  refine ⟨by simp [even_distribution], ?_, ?_, ?_⟩
  · simp only [even_distribution]
    rw [getD_map_range _ hn]
    simp
  · simp only [even_distribution]
    rw [getD_map_range _ (by omega : n - 1 < n)]
    have hcast : ((n - 1 : ℕ) : ℚ) + 1 = (n : ℚ) := by
      rw [Nat.cast_sub (by omega : 1 ≤ n)]
      push_cast
      ring
    simp only [hcast]
    rw [mul_comm, div_mul_cancel₀ td hne]
  · intro i hi
    simp only [even_distribution]
    rw [getD_map_range _ (by omega : i < n), getD_map_range _ hi]
    push_cast
    ring_nf

theorem cutPointsList_getD_zero (style : CutStyle) (vb : List ℚ) (n : ℕ) (td : ℚ) :
    (cutPointsList style vb n td).getD 0 0 = 0 := by
  simp [cutPointsList]

theorem cutPointsList_getD_mid (style : CutStyle) (vb : List ℚ) (n : ℕ) (td : ℚ)
    {j : ℕ} (hj : j < n - 1) :
    (cutPointsList style vb n td).getD (j + 1) 0 =
      ((buildCuts style vb n td (n - 1) 1 0).getD j (0, false)).1 := by
  simp only [cutPointsList]
  rw [List.getD_cons_succ]
  rw [List.getD_append]
  · exact getD_map_fst _ _ (by rw [buildCuts_length]; exact hj)
  · rw [List.length_map, buildCuts_length]
    exact hj

theorem cutPointsList_getD_last (style : CutStyle) (vb : List ℚ) (n : ℕ) (td : ℚ)
    (hn : 0 < n) : (cutPointsList style vb n td).getD n 0 = td := by
  obtain ⟨m, rfl⟩ : ∃ m, n = m + 1 := ⟨n - 1, by omega⟩
  simp only [cutPointsList]
  rw [List.getD_cons_succ]
  rw [List.getD_append_right]
  · rw [List.length_map, buildCuts_length]
    simp
  · rw [List.length_map, buildCuts_length]
    omega

/-- Claim C1: for every positive image count, beat list, target
duration and pacing style, `calculate_cuts` returns exactly
`image_count` segments, the first starting at 0, the last ending at
`target_duration`, adjacent segments sharing their boundary, and every
segment whose right endpoint was chosen from the beat candidate set
(rather than forced to a constraint boundary) lasting at least
`MIN_IMAGE_DURATION`. -/
theorem claim_C1_calculate_cuts_invariants (bts : List ℚ) (n : ℕ) (td : ℚ)
    (style : CutStyle) (hn : 0 < n) :
    (calculate_cuts bts n td style).length = n ∧
    ((calculate_cuts bts n td style).getD 0 (0, 0)).1 = 0 ∧
    ((calculate_cuts bts n td style).getD (n - 1) (0, 0)).2 = td ∧
    (∀ i, i + 1 < n → ((calculate_cuts bts n td style).getD i (0, 0)).2 =
      ((calculate_cuts bts n td style).getD (i + 1) (0, 0)).1) ∧
    (∀ i, segmentChosenFromBeats bts n td style i = true →
      MIN_IMAGE_DURATION ≤ ((calculate_cuts bts n td style).getD i (0, 0)).2 -
        ((calculate_cuts bts n td style).getD i (0, 0)).1) := by
  by_cases hb : bts = []
  · have heq : calculate_cuts bts n td style = even_distribution n td := by
      unfold calculate_cuts
      simp [hn.ne', hb]
    have hflag : ∀ i, segmentChosenFromBeats bts n td style i = false := by
      intro i
      unfold segmentChosenFromBeats
      simp [hn.ne', hb]
    obtain ⟨h1, h2, h3, h4⟩ := even_distribution_props n td hn
    rw [heq]
    refine ⟨h1, h2, h3, h4, fun i hi => ?_⟩
    rw [hflag i] at hi
    cases hi
  · by_cases hlen : (validBeatsOf bts td).length < n + 1
    · have heq : calculate_cuts bts n td style = even_distribution n td := by
        unfold calculate_cuts
        simp [hn.ne', hb, hlen]
      have hflag : ∀ i, segmentChosenFromBeats bts n td style i = false := by
        intro i
        unfold segmentChosenFromBeats
        simp [hn.ne', hb, hlen]
      obtain ⟨h1, h2, h3, h4⟩ := even_distribution_props n td hn
      rw [heq]
      refine ⟨h1, h2, h3, h4, fun i hi => ?_⟩
      rw [hflag i] at hi
      cases hi
    · have heq : calculate_cuts bts n td style =
          (List.range n).map (fun i =>
            ((cutPointsList style (validBeatsOf bts td) n td).getD i 0,
             (cutPointsList style (validBeatsOf bts td) n td).getD (i + 1) 0)) := by
        unfold calculate_cuts
        simp [hn.ne', hb, hlen]
      have hflag : ∀ i, segmentChosenFromBeats bts n td style i =
          ((buildCuts style (validBeatsOf bts td) n td (n - 1) 1 0).getD i
            (0, false)).2 := by
        intro i
        unfold segmentChosenFromBeats
        simp [hn.ne', hb, hlen]
      rw [heq]
      refine ⟨by simp, ?_, ?_, ?_, ?_⟩
      · rw [getD_map_range _ hn]
        simpa using cutPointsList_getD_zero style (validBeatsOf bts td) n td
      · rw [getD_map_range _ (by omega : n - 1 < n)]
        have h1 : n - 1 + 1 = n := by omega
        simpa [h1] using cutPointsList_getD_last style (validBeatsOf bts td) n td hn
      · intro i hi
        rw [getD_map_range _ (by omega : i < n), getD_map_range _ hi]
      · intro i hi
        rw [hflag i] at hi
        have hilt : i < n - 1 := by
          by_contra hcon
          rw [List.getD_eq_default] at hi
          · cases hi
          · rw [buildCuts_length]
            omega
        have hchain := cutChainOK_getD
          (buildCuts style (validBeatsOf bts td) n td (n - 1) 1 0) 0
          (buildCuts_chainOK style (validBeatsOf bts td) n td (n - 1) 1 0) i hi
        rw [getD_map_range _ (by omega : i < n)]
        simp only []
        rw [cutPointsList_getD_mid style (validBeatsOf bts td) n td hilt]
        match i, hilt, hchain with
        | 0, hilt, hchain =>
          rw [cutPointsList_getD_zero]
          simp only [reduceIte] at hchain
          linarith
        | i + 1, hilt, hchain =>
          rw [cutPointsList_getD_mid style (validBeatsOf bts td) n td
            (by omega : i < n - 1)]
          simp only [Nat.add_sub_cancel, Nat.succ_ne_zero, if_false] at hchain
          linarith

/-- Witness for claim C1 with two images and no beats. -/
theorem claim_C1_witness :
    (calculate_cuts [] 2 10 .fast).length = 2 ∧
    ((calculate_cuts [] 2 10 .fast).getD 0 (0, 0)).1 = 0 ∧
    ((calculate_cuts [] 2 10 .fast).getD (2 - 1) (0, 0)).2 = 10 :=
  ⟨(claim_C1_calculate_cuts_invariants [] 2 10 .fast (by norm_num)).1,
   (claim_C1_calculate_cuts_invariants [] 2 10 .fast (by norm_num)).2.1,
   (claim_C1_calculate_cuts_invariants [] 2 10 .fast (by norm_num)).2.2.1⟩

/-! ## Claim C3: pacing-style monotonicity -/

theorem MIN_IMAGE_DURATION_pos : (0 : ℚ) < MIN_IMAGE_DURATION := by
  norm_num [MIN_IMAGE_DURATION]

theorem mem_candidates {vb : List ℚ} {minC maxC prev b : ℚ} :
    b ∈ vb.filter (fun x => decide (minC ≤ x ∧ x ≤ maxC ∧ prev < x)) ↔
      b ∈ vb ∧ minC ≤ b ∧ b ≤ maxC ∧ prev < b := by
  rw [List.mem_filter]
  simp

theorem candidates_antitone {vb : List ℚ} {maxC prevA prevB : ℚ} (h : prevA ≤ prevB)
    {b : ℚ}
    (hb : b ∈ vb.filter (fun x =>
      decide (prevB + MIN_IMAGE_DURATION ≤ x ∧ x ≤ maxC ∧ prevB < x))) :
    b ∈ vb.filter (fun x =>
      decide (prevA + MIN_IMAGE_DURATION ≤ x ∧ x ≤ maxC ∧ prevA < x)) := by
  rw [mem_candidates] at hb ⊢
  obtain ⟨h1, h2, h3, h4⟩ := hb
  exact ⟨h1, by linarith, h3, by linarith⟩

theorem chooseCut_fast_le_medium (vb : List ℚ) (ideal maxC prevF prevM : ℚ)
    (h : prevF ≤ prevM) :
    (chooseCut .fast vb ideal (prevF + MIN_IMAGE_DURATION) maxC prevF).1 ≤
      (chooseCut .medium vb ideal (prevM + MIN_IMAGE_DURATION) maxC prevM).1 := by
  have hminpos := MIN_IMAGE_DURATION_pos
  by_cases hM : vb.filter (fun x =>
      decide (prevM + MIN_IMAGE_DURATION ≤ x ∧ x ≤ maxC ∧ prevM < x)) = []
  · by_cases hF : vb.filter (fun x =>
        decide (prevF + MIN_IMAGE_DURATION ≤ x ∧ x ≤ maxC ∧ prevF < x)) = []
    · rw [chooseCut_forced _ _ _ _ _ _ hF, chooseCut_forced _ _ _ _ _ _ hM]
      exact min_le_min (max_le_max (by linarith) le_rfl) le_rfl
    · obtain ⟨hmem, -⟩ := chooseCut_mem .fast vb ideal
        (prevF + MIN_IMAGE_DURATION) maxC prevF hF
      obtain ⟨hrvb, hr1, hr2, hr3⟩ := mem_candidates.mp hmem
      have hrM : (chooseCut .fast vb ideal (prevF + MIN_IMAGE_DURATION) maxC
          prevF).1 < prevM + MIN_IMAGE_DURATION := by
        by_contra hcon
        push_neg at hcon
        have hlt : prevM < (chooseCut .fast vb ideal
            (prevF + MIN_IMAGE_DURATION) maxC prevF).1 := by linarith
        have hin : (chooseCut .fast vb ideal (prevF + MIN_IMAGE_DURATION) maxC
            prevF).1 ∈ vb.filter (fun x =>
              decide (prevM + MIN_IMAGE_DURATION ≤ x ∧ x ≤ maxC ∧ prevM < x)) :=
          mem_candidates.mpr ⟨hrvb, hcon, hr2, hlt⟩
        rw [hM] at hin
        exact absurd hin (List.not_mem_nil _)
      rw [chooseCut_forced _ _ _ _ _ _ hM]
      exact le_min (le_trans (le_of_lt hrM) (le_max_left _ _)) hr2
  · have hFne : vb.filter (fun x =>
        decide (prevF + MIN_IMAGE_DURATION ≤ x ∧ x ≤ maxC ∧ prevF < x)) ≠ [] := by
      obtain ⟨m0, hm0⟩ := List.exists_mem_of_ne_nil _ hM
      intro hF
      have := candidates_antitone h hm0
      rw [hF] at this
      exact absurd this (List.not_mem_nil _)
    have hmed_eq : (chooseCut .medium vb ideal (prevM + MIN_IMAGE_DURATION) maxC
        prevM).1 = argminAbs ideal (vb.filter (fun x =>
          decide (prevM + MIN_IMAGE_DURATION ≤ x ∧ x ≤ maxC ∧ prevM < x))) := by
      simp only [chooseCut]
      rw [if_neg hM]
    have hmM := argminAbs_mem ideal hM
    obtain ⟨hmvb, hm1, hm2, hm3⟩ := mem_candidates.mp hmM
    by_cases hB : (vb.filter (fun x =>
        decide (prevF + MIN_IMAGE_DURATION ≤ x ∧ x ≤ maxC ∧ prevF < x))).filter
          (fun b => decide (b ≤ ideal)) = []
    · have hf_eq : (chooseCut .fast vb ideal (prevF + MIN_IMAGE_DURATION) maxC
          prevF).1 = listMin (vb.filter (fun x =>
            decide (prevF + MIN_IMAGE_DURATION ≤ x ∧ x ≤ maxC ∧ prevF < x))) := by
        simp only [chooseCut]
        rw [if_neg hFne, if_pos hB]
      rw [hf_eq, hmed_eq]
      exact listMin_le (candidates_antitone h hmM)
    · have hf_eq : (chooseCut .fast vb ideal (prevF + MIN_IMAGE_DURATION) maxC
          prevF).1 = listMax ((vb.filter (fun x =>
            decide (prevF + MIN_IMAGE_DURATION ≤ x ∧ x ≤ maxC ∧ prevF < x))).filter
              (fun b => decide (b ≤ ideal))) := by
        simp only [chooseCut]
        rw [if_neg hFne, if_neg hB]
      have hfB := listMax_mem hB
      have hfF := List.mem_of_mem_filter hfB
      have hfle : listMax ((vb.filter (fun x =>
          decide (prevF + MIN_IMAGE_DURATION ≤ x ∧ x ≤ maxC ∧ prevF < x))).filter
            (fun b => decide (b ≤ ideal))) ≤ ideal := by
        have := (List.mem_filter.mp hfB).2
        simpa using this
      rcases le_or_lt ideal (argminAbs ideal (vb.filter (fun x =>
          decide (prevM + MIN_IMAGE_DURATION ≤ x ∧ x ≤ maxC ∧ prevM < x))))
        with hcase | hcase
      · rw [hf_eq, hmed_eq]
        linarith
      · obtain ⟨hfvb, hf1, hf2, hf3⟩ := mem_candidates.mp hfF
        have hmF := candidates_antitone h hmM
        have hmB : argminAbs ideal (vb.filter (fun x =>
            decide (prevM + MIN_IMAGE_DURATION ≤ x ∧ x ≤ maxC ∧ prevM < x))) ∈
            (vb.filter (fun x =>
              decide (prevF + MIN_IMAGE_DURATION ≤ x ∧ x ≤ maxC ∧ prevF < x))).filter
                (fun b => decide (b ≤ ideal)) :=
          List.mem_filter.mpr ⟨hmF, by simpa using le_of_lt hcase⟩
        have hmf := le_listMax hmB
        rw [hf_eq, hmed_eq]
        have hfM : listMax ((vb.filter (fun x =>
            decide (prevF + MIN_IMAGE_DURATION ≤ x ∧ x ≤ maxC ∧ prevF < x))).filter
              (fun b => decide (b ≤ ideal))) ∈ vb.filter (fun x =>
            decide (prevM + MIN_IMAGE_DURATION ≤ x ∧ x ≤ maxC ∧ prevM < x)) :=
          mem_candidates.mpr ⟨hfvb, by linarith, hf2, by linarith⟩
        have harg := argminAbs_le ideal hfM
        rw [abs_of_nonpos (by linarith), abs_of_nonpos (by linarith)] at harg
        linarith

theorem chooseCut_medium_le_slow (vb : List ℚ) (ideal maxC prevM prevS : ℚ)
    (h : prevM ≤ prevS) :
    (chooseCut .medium vb ideal (prevM + MIN_IMAGE_DURATION) maxC prevM).1 ≤
      (chooseCut .slow vb ideal (prevS + MIN_IMAGE_DURATION) maxC prevS).1 := by
  have hminpos := MIN_IMAGE_DURATION_pos
  by_cases hS : vb.filter (fun x =>
      decide (prevS + MIN_IMAGE_DURATION ≤ x ∧ x ≤ maxC ∧ prevS < x)) = []
  · by_cases hM : vb.filter (fun x =>
        decide (prevM + MIN_IMAGE_DURATION ≤ x ∧ x ≤ maxC ∧ prevM < x)) = []
    · rw [chooseCut_forced _ _ _ _ _ _ hM, chooseCut_forced _ _ _ _ _ _ hS]
      exact min_le_min (max_le_max (by linarith) le_rfl) le_rfl
    · have hmed_eq : (chooseCut .medium vb ideal (prevM + MIN_IMAGE_DURATION) maxC
          prevM).1 = argminAbs ideal (vb.filter (fun x =>
            decide (prevM + MIN_IMAGE_DURATION ≤ x ∧ x ≤ maxC ∧ prevM < x))) := by
        simp only [chooseCut]
        rw [if_neg hM]
      have hmM := argminAbs_mem ideal hM
      obtain ⟨hmvb, hm1, hm2, hm3⟩ := mem_candidates.mp hmM
      have hmS : argminAbs ideal (vb.filter (fun x =>
          decide (prevM + MIN_IMAGE_DURATION ≤ x ∧ x ≤ maxC ∧ prevM < x))) <
          prevS + MIN_IMAGE_DURATION := by
        by_contra hcon
        push_neg at hcon
        have hlt : prevS < argminAbs ideal (vb.filter (fun x =>
            decide (prevM + MIN_IMAGE_DURATION ≤ x ∧ x ≤ maxC ∧ prevM < x))) := by
          linarith
        have hin : argminAbs ideal (vb.filter (fun x =>
            decide (prevM + MIN_IMAGE_DURATION ≤ x ∧ x ≤ maxC ∧ prevM < x))) ∈
            vb.filter (fun x =>
              decide (prevS + MIN_IMAGE_DURATION ≤ x ∧ x ≤ maxC ∧ prevS < x)) :=
          mem_candidates.mpr ⟨hmvb, hcon, hm2, hlt⟩
        rw [hS] at hin
        exact absurd hin (List.not_mem_nil _)
      rw [chooseCut_forced _ _ _ _ _ _ hS, hmed_eq]
      exact le_min (le_trans (le_of_lt hmS) (le_max_left _ _)) hm2
  · have hM : vb.filter (fun x =>
        decide (prevM + MIN_IMAGE_DURATION ≤ x ∧ x ≤ maxC ∧ prevM < x)) ≠ [] := by
      obtain ⟨s0, hs0⟩ := List.exists_mem_of_ne_nil _ hS
      intro hMe
      have := candidates_antitone h hs0
      rw [hMe] at this
      exact absurd this (List.not_mem_nil _)
    have hmed_eq : (chooseCut .medium vb ideal (prevM + MIN_IMAGE_DURATION) maxC
        prevM).1 = argminAbs ideal (vb.filter (fun x =>
          decide (prevM + MIN_IMAGE_DURATION ≤ x ∧ x ≤ maxC ∧ prevM < x))) := by
      simp only [chooseCut]
      rw [if_neg hM]
    have hmM := argminAbs_mem ideal hM
    obtain ⟨hmvb, hm1, hm2, hm3⟩ := mem_candidates.mp hmM
    have hnotS : (argminAbs ideal (vb.filter (fun x =>
        decide (prevM + MIN_IMAGE_DURATION ≤ x ∧ x ≤ maxC ∧ prevM < x))) ∉
        vb.filter (fun x =>
          decide (prevS + MIN_IMAGE_DURATION ≤ x ∧ x ≤ maxC ∧ prevS < x))) →
        ∀ s ∈ vb.filter (fun x =>
          decide (prevS + MIN_IMAGE_DURATION ≤ x ∧ x ≤ maxC ∧ prevS < x)),
          argminAbs ideal (vb.filter (fun x =>
            decide (prevM + MIN_IMAGE_DURATION ≤ x ∧ x ≤ maxC ∧ prevM < x))) ≤ s := by
      intro hnot s hs
      obtain ⟨hsvb, hs1, hs2, hs3⟩ := mem_candidates.mp hs
      by_cases hc1 : prevS + MIN_IMAGE_DURATION ≤ argminAbs ideal (vb.filter (fun x =>
          decide (prevM + MIN_IMAGE_DURATION ≤ x ∧ x ≤ maxC ∧ prevM < x)))
      · exfalso
        exact hnot (mem_candidates.mpr ⟨hmvb, hc1, hm2, by linarith⟩)
      · push_neg at hc1
        linarith
    by_cases hA : (vb.filter (fun x =>
        decide (prevS + MIN_IMAGE_DURATION ≤ x ∧ x ≤ maxC ∧ prevS < x))).filter
          (fun b => decide (ideal ≤ b)) = []
    · have hs_eq : (chooseCut .slow vb ideal (prevS + MIN_IMAGE_DURATION) maxC
          prevS).1 = listMax (vb.filter (fun x =>
            decide (prevS + MIN_IMAGE_DURATION ≤ x ∧ x ≤ maxC ∧ prevS < x))) := by
        simp only [chooseCut]
        rw [if_neg hS, if_pos hA]
      rw [hmed_eq, hs_eq]
      by_cases hmS : argminAbs ideal (vb.filter (fun x =>
          decide (prevM + MIN_IMAGE_DURATION ≤ x ∧ x ≤ maxC ∧ prevM < x))) ∈
          vb.filter (fun x =>
            decide (prevS + MIN_IMAGE_DURATION ≤ x ∧ x ≤ maxC ∧ prevS < x))
      · exact le_listMax hmS
      · exact hnotS hmS _ (listMax_mem hS)
    · have hs_eq : (chooseCut .slow vb ideal (prevS + MIN_IMAGE_DURATION) maxC
          prevS).1 = listMin ((vb.filter (fun x =>
            decide (prevS + MIN_IMAGE_DURATION ≤ x ∧ x ≤ maxC ∧ prevS < x))).filter
              (fun b => decide (ideal ≤ b))) := by
        simp only [chooseCut]
        rw [if_neg hS, if_neg hA]
      have hsA := listMin_mem hA
      have hsS := List.mem_of_mem_filter hsA
      have hsge : ideal ≤ listMin ((vb.filter (fun x =>
          decide (prevS + MIN_IMAGE_DURATION ≤ x ∧ x ≤ maxC ∧ prevS < x))).filter
            (fun b => decide (ideal ≤ b))) := by
        have := (List.mem_filter.mp hsA).2
        simpa using this
      rcases le_or_lt (argminAbs ideal (vb.filter (fun x =>
          decide (prevM + MIN_IMAGE_DURATION ≤ x ∧ x ≤ maxC ∧ prevM < x)))) ideal
        with hcase | hcase
      · rw [hmed_eq, hs_eq]
        linarith
      · by_cases hmS : argminAbs ideal (vb.filter (fun x =>
            decide (prevM + MIN_IMAGE_DURATION ≤ x ∧ x ≤ maxC ∧ prevM < x))) ∈
            vb.filter (fun x =>
              decide (prevS + MIN_IMAGE_DURATION ≤ x ∧ x ≤ maxC ∧ prevS < x))
        · have hmA : argminAbs ideal (vb.filter (fun x =>
              decide (prevM + MIN_IMAGE_DURATION ≤ x ∧ x ≤ maxC ∧ prevM < x))) ∈
              (vb.filter (fun x =>
                decide (prevS + MIN_IMAGE_DURATION ≤ x ∧ x ≤ maxC ∧ prevS < x))).filter
                  (fun b => decide (ideal ≤ b)) :=
            List.mem_filter.mpr ⟨hmS, by simpa using le_of_lt hcase⟩
          have h1 := listMin_le hmA
          have hsM := candidates_antitone h hsS
          have harg := argminAbs_le ideal hsM
          rw [abs_of_nonneg (by linarith), abs_of_nonneg (by linarith)] at harg
          rw [hmed_eq, hs_eq]
          linarith
        · rw [hmed_eq, hs_eq]
          exact hnotS hmS _ hsS

theorem buildCuts_fast_le_medium (vb : List ℚ) (n : ℕ) (td : ℚ) :
    ∀ (k i : ℕ) (prevF prevM : ℚ), prevF ≤ prevM →
      List.Forall₂ (fun a b : ℚ × Bool => a.1 ≤ b.1)
        (buildCuts .fast vb n td k i prevF) (buildCuts .medium vb n td k i prevM) := by
  intro k
  induction k with
  | zero =>
    intro i pF pM h
    simp [buildCuts]
  | succ k ih =>
    intro i pF pM h
    simp only [buildCuts]
    have hstep := chooseCut_fast_le_medium vb (td / (n : ℚ) * (i : ℚ))
      (td - ((n - i : ℕ) : ℚ) * MIN_IMAGE_DURATION) pF pM h
    exact List.Forall₂.cons hstep (ih (i + 1) _ _ hstep)

theorem buildCuts_medium_le_slow (vb : List ℚ) (n : ℕ) (td : ℚ) :
    ∀ (k i : ℕ) (prevM prevS : ℚ), prevM ≤ prevS →
      List.Forall₂ (fun a b : ℚ × Bool => a.1 ≤ b.1)
        (buildCuts .medium vb n td k i prevM) (buildCuts .slow vb n td k i prevS) := by
  intro k
  induction k with
  | zero =>
    intro i pM pS h
    simp [buildCuts]
  | succ k ih =>
    intro i pM pS h
    simp only [buildCuts]
    have hstep := chooseCut_medium_le_slow vb (td / (n : ℚ) * (i : ℚ))
      (td - ((n - i : ℕ) : ℚ) * MIN_IMAGE_DURATION) pM pS h
    exact List.Forall₂.cons hstep (ih (i + 1) _ _ hstep)

theorem forall₂_map_fst {L LM : List (ℚ × Bool)}
    (h : List.Forall₂ (fun a b : ℚ × Bool => a.1 ≤ b.1) L LM) :
    List.Forall₂ (· ≤ ·) (L.map Prod.fst) (LM.map Prod.fst) := by
  induction h with
  | nil => simp
  | cons hab htail ih =>
    simp only [List.map_cons]
    exact List.Forall₂.cons hab ih

theorem forall₂_le_getD {l lm : List ℚ} (h : List.Forall₂ (· ≤ ·) l lm) :
    ∀ i, l.getD i 0 ≤ lm.getD i 0 := by
  induction h with
  | nil => intro i; simp
  | cons hab htail ih =>
    intro i
    match i with
    | 0 => simpa using hab
    | i + 1 => simpa using ih i

theorem forall₂_map_range {α : Type} (R : α → α → Prop) (f g : ℕ → α) (n : ℕ)
    (h : ∀ i, i < n → R (f i) (g i)) :
    List.Forall₂ R ((List.range n).map f) ((List.range n).map g) := by
  induction n with
  | zero => simp
  | succ n ih =>
    rw [List.range_succ, List.map_append, List.map_append]
    refine List.rel_append (ih (fun i hi => h i (by omega))) ?_
    simpa using h n (by omega)

theorem cutPointsList_le (s1 s2 : CutStyle) (vb : List ℚ) (n : ℕ) (td : ℚ)
    (h : ∀ (k i : ℕ) (p1 p2 : ℚ), p1 ≤ p2 →
      List.Forall₂ (fun a b : ℚ × Bool => a.1 ≤ b.1)
        (buildCuts s1 vb n td k i p1) (buildCuts s2 vb n td k i p2)) :
    List.Forall₂ (· ≤ ·) (cutPointsList s1 vb n td) (cutPointsList s2 vb n td) := by
  unfold cutPointsList
  exact List.Forall₂.cons le_rfl
    (List.rel_append (forall₂_map_fst (h (n - 1) 1 0 0 le_rfl))
      (List.Forall₂.cons le_rfl List.Forall₂.nil))

theorem calculate_cuts_pointwise_le (bts : List ℚ) (n : ℕ) (td : ℚ)
    (s1 s2 : CutStyle)
    (h : ∀ (k i : ℕ) (p1 p2 : ℚ), p1 ≤ p2 →
      List.Forall₂ (fun a b : ℚ × Bool => a.1 ≤ b.1)
        (buildCuts s1 (validBeatsOf bts td) n td k i p1)
        (buildCuts s2 (validBeatsOf bts td) n td k i p2)) :
    List.Forall₂ (fun p q : ℚ × ℚ => p.1 ≤ q.1 ∧ p.2 ≤ q.2)
      (calculate_cuts bts n td s1) (calculate_cuts bts n td s2) := by
  by_cases hn : n = 0
  · simp [calculate_cuts, hn]
  · by_cases hbts : bts = []
    · have h1 : calculate_cuts bts n td s1 = even_distribution n td := by
        unfold calculate_cuts
        simp [hn, hbts]
      have h2 : calculate_cuts bts n td s2 = even_distribution n td := by
        unfold calculate_cuts
        simp [hn, hbts]
      rw [h1, h2]
      exact List.forall₂_same.mpr (fun x _ => ⟨le_rfl, le_rfl⟩)
    · by_cases hlen : (validBeatsOf bts td).length < n + 1
      · have h1 : calculate_cuts bts n td s1 = even_distribution n td := by
          unfold calculate_cuts
          simp [hn, hbts, hlen]
        have h2 : calculate_cuts bts n td s2 = even_distribution n td := by
          unfold calculate_cuts
          simp [hn, hbts, hlen]
        rw [h1, h2]
        exact List.forall₂_same.mpr (fun x _ => ⟨le_rfl, le_rfl⟩)
      · have heq : ∀ s : CutStyle, calculate_cuts bts n td s =
            (List.range n).map (fun i =>
              ((cutPointsList s (validBeatsOf bts td) n td).getD i 0,
               (cutPointsList s (validBeatsOf bts td) n td).getD (i + 1) 0)) := by
          intro s
          unfold calculate_cuts
          simp [hn, hbts, hlen]
        rw [heq s1, heq s2]
        have hgetD := forall₂_le_getD (cutPointsList_le s1 s2 (validBeatsOf bts td) n td h)
        exact forall₂_map_range _ _ _ n (fun i _ => ⟨hgetD i, hgetD (i + 1)⟩)

/-- Claim C3: for identical beats, image count and target duration, the
"fast" cut sequence is pointwise below the "medium" one, and "medium"
pointwise below "slow" — here proved at every index, forced boundary
cuts included, which subsumes the exception the claim makes for forced cuts. -/
theorem claim_C3_pacing_style_monotone (bts : List ℚ) (n : ℕ) (td : ℚ) :
    List.Forall₂ (fun p q : ℚ × ℚ => p.1 ≤ q.1 ∧ p.2 ≤ q.2)
      (calculate_cuts bts n td .fast) (calculate_cuts bts n td .medium) ∧
    List.Forall₂ (fun p q : ℚ × ℚ => p.1 ≤ q.1 ∧ p.2 ≤ q.2)
      (calculate_cuts bts n td .medium) (calculate_cuts bts n td .slow) :=
  ⟨calculate_cuts_pointwise_le bts n td .fast .medium
      (buildCuts_fast_le_medium (validBeatsOf bts td) n td),
   calculate_cuts_pointwise_le bts n td .medium .slow
      (buildCuts_medium_le_slow (validBeatsOf bts td) n td)⟩

/-! ## Claim C7: job state machine safety along the execution paths -/

theorem applyUpdate_status_none {r : JobRecord} {u : UpdateArgs}
    (h : u.status = none) : (applyUpdate r u).status = r.status := by
  simp [applyUpdate, h]

theorem applyUpdate_status_some {r : JobRecord} {u : UpdateArgs} {s : JStatus}
    (h : u.status = some s) : (applyUpdate r u).status = s := by
  simp [applyUpdate, h]

theorem applyUpdate_progress_none {r : JobRecord} {u : UpdateArgs}
    (h : u.progress = none) : (applyUpdate r u).progress = r.progress := by
  simp [applyUpdate, h]

theorem applyUpdate_progress_some {r : JobRecord} {u : UpdateArgs} {p : ℕ}
    (h : u.progress = some p) : (applyUpdate r u).progress = p := by
  simp [applyUpdate, h]

theorem traceOK_append : ∀ (us vs : List UpdateArgs) (r : JobRecord),
    TraceOK r us → TraceOK (us.foldl applyUpdate r) vs → TraceOK r (us ++ vs) := by
  intro us
  induction us with
  | nil =>
    intro vs r _ h2
    simpa using h2
  | cons u rest ih =>
    intro vs r h1 h2
    obtain ⟨ha, hb, hc⟩ := h1
    exact ⟨ha, hb, ih vs _ hc (by simpa using h2)⟩

theorem traceOK_take : ∀ (us : List UpdateArgs) (r : JobRecord) (j : ℕ),
    TraceOK r us → TraceOK r (us.take j) := by
  intro us
  induction us with
  | nil =>
    intro r j h
    simpa using h
  | cons u rest ih =>
    intro r j h
    match j with
    | 0 => exact trivial
    | j + 1 =>
      obtain ⟨ha, hb, hc⟩ := h
      exact ⟨ha, hb, ih _ j hc⟩

theorem status_foldl_nonterminal : ∀ (us : List UpdateArgs) (r : JobRecord),
    r.status ≠ .completed → r.status ≠ .failed →
    (∀ u ∈ us, u.status ≠ some .completed ∧ u.status ≠ some .failed) →
    (us.foldl applyUpdate r).status ≠ .completed ∧
    (us.foldl applyUpdate r).status ≠ .failed := by
  intro us
  induction us with
  | nil =>
    intro r h1 h2 _
    exact ⟨h1, h2⟩
  | cons u rest ih =>
    intro r h1 h2 hall
    rw [List.foldl_cons]
    obtain ⟨hu1, hu2⟩ := hall u (List.mem_cons_self _ _)
    refine ih _ ?_ ?_ (fun v hv => hall v (List.mem_cons_of_mem _ hv))
    · cases hu : u.status with
      | none => rw [applyUpdate_status_none hu]; exact h1
      | some s =>
        rw [applyUpdate_status_some hu]
        intro he
        exact hu1 (by rw [hu, he])
    · cases hu : u.status with
      | none => rw [applyUpdate_status_none hu]; exact h2
      | some s =>
        rw [applyUpdate_status_some hu]
        intro he
        exact hu2 (by rw [hu, he])

theorem traceOK_snoc_terminal (us : List UpdateArgs) (r : JobRecord)
    (u : UpdateArgs)
    (hu : u.status = some .completed ∨ u.status = some .failed)
    (h : TraceOK r us)
    (h1 : (us.foldl applyUpdate r).status ≠ .completed)
    (h2 : (us.foldl applyUpdate r).status ≠ .failed) :
    TraceOK r (us ++ [u]) := by
  refine traceOK_append us [u] r h ⟨?_, ?_, trivial⟩
  · intro habs
    rcases habs with habs | habs
    · exact absurd habs h1
    · exact absurd habs h2
  · intro _ hq
    rcases hu with hu | hu <;> rw [applyUpdate_status_some hu] at hq <;> cases hq

theorem traceOK_neutral : ∀ (us : List UpdateArgs) (r : JobRecord),
    r.status = .processing →
    (∀ u ∈ us, u.status = none) →
    List.Chain' (· ≤ ·) (r.progress :: us.filterMap UpdateArgs.progress) →
    TraceOK r us ∧ (us.foldl applyUpdate r).status = .processing := by
  intro us
  induction us with
  | nil =>
    intro r hr _ _
    exact ⟨trivial, hr⟩
  | cons u rest ih =>
    intro r hr hall hchain
    have hu := hall u (List.mem_cons_self _ _)
    have hs : (applyUpdate r u).status = .processing := by
      rw [applyUpdate_status_none hu]
      exact hr
    have hterm : (r.status = JStatus.completed ∨ r.status = JStatus.failed) →
        (applyUpdate r u).status = r.status := by
      intro habs
      rw [hr] at habs
      rcases habs with h | h <;> cases h
    cases hp : u.progress with
    | none =>
      have hpe := applyUpdate_progress_none (r := r) hp
      have hch : List.Chain' (· ≤ ·)
          ((applyUpdate r u).progress :: rest.filterMap UpdateArgs.progress) := by
        rw [hpe]
        rw [List.filterMap_cons_none hp] at hchain
        exact hchain
      obtain ⟨h1, h2⟩ := ih _ hs (fun v hv => hall v (List.mem_cons_of_mem _ hv)) hch
      refine ⟨⟨hterm, ?_, h1⟩, by simpa using h2⟩
      intro _ _
      rw [hpe]
    | some p =>
      have hpe := applyUpdate_progress_some (r := r) hp
      rw [List.filterMap_cons_some hp] at hchain
      have hle : r.progress ≤ p := (List.chain'_cons.mp hchain).1
      have hch : List.Chain' (· ≤ ·)
          ((applyUpdate r u).progress :: rest.filterMap UpdateArgs.progress) := by
        rw [hpe]
        exact (List.chain'_cons.mp hchain).2
      obtain ⟨h1, h2⟩ := ih _ hs (fun v hv => hall v (List.mem_cons_of_mem _ hv)) hch
      refine ⟨⟨hterm, ?_, h1⟩, by simpa using h2⟩
      intro _ _
      rw [hpe]
      exact hle

theorem getLast?_map_range {α : Type} (f : ℕ → α) (k : ℕ) (hk : 0 < k) :
    ((List.range k).map f).getLast? = some (f (k - 1)) := by
  obtain ⟨m, rfl⟩ : ∃ m, k = m + 1 := ⟨k - 1, by omega⟩
  rw [List.range_succ, List.map_append]
  simp

theorem head?_map_range {α : Type} (f : ℕ → α) (k : ℕ) (hk : 0 < k) :
    ((List.range k).map f).head? = some (f 0) := by
  obtain ⟨m, rfl⟩ : ∃ m, k = m + 1 := ⟨k - 1, by omega⟩
  rw [List.range_succ_eq_map]
  simp

theorem chain_le_map_range (f : ℕ → ℕ) (k : ℕ) (hf : ∀ i, f i ≤ f (i + 1)) :
    List.Chain' (· ≤ ·) ((List.range k).map f) := by
  rw [List.chain'_map]
  cases k with
  | zero => simp
  | succ m =>
    rw [List.chain'_range_succ]
    intro i _
    exact hf i

theorem renderEvents_map_fst (k : ℕ) :
    (renderProgressEvents k).map Prod.fst =
      [0, 10, 15, 20, 25, 30] ++
      (List.range k).map (fun i => 30 + 25 * (i + 1) / k) ++
      [55, 65, 75, 80, 85, 95, 100] := by
  simp [renderProgressEvents]

theorem renderEvents_chain (k : ℕ) :
    List.Chain' (· ≤ ·) ((renderProgressEvents k).map Prod.fst) := by
  rw [renderEvents_map_fst]
  rcases Nat.eq_zero_or_pos k with rfl | hk
  · simp [List.chain'_cons]
  · refine List.Chain'.append
      (List.Chain'.append (by simp [List.chain'_cons]) ?_ ?_)
      (by simp [List.chain'_cons]) ?_
    · exact chain_le_map_range _ k (fun i => by
        have := Nat.div_le_div_right (c := k)
          (Nat.mul_le_mul_left 25 (by omega : i + 1 ≤ i + 1 + 1))
        omega)
    · intro x hx y hy
      simp at hx
      rw [head?_map_range _ _ hk] at hy
      simp at hy
      subst hx
      subst hy
      exact Nat.le_add_right 30 _
    · intro x hx y hy
      have hne : (List.range k).map (fun i => 30 + 25 * (i + 1) / k) ≠ [] := by
        simp
        omega
      rw [List.getLast?_append_of_ne_nil _ hne, getLast?_map_range _ _ hk] at hx
      simp at hx
      have hdiv : 25 * (k - 1 + 1) / k = 25 := by
        rw [show k - 1 + 1 = k by omega]
        exact Nat.mul_div_cancel _ hk
      simp at hy
      omega

theorem filterMap_progressUpd (l : List (ℕ × String)) :
    (l.map (fun e => progressUpd e.1 e.2)).filterMap UpdateArgs.progress =
      l.map Prod.fst := by
  induction l with
  | nil => rfl
  | cons e rest ih =>
    simp only [List.map_cons]
    rw [List.filterMap_cons_some (by rfl), ih]

theorem filterMap_progressUpd_scaled (l : List (ℕ × String)) :
    (l.map (fun e => progressUpd (40 + 3 * e.1 / 5) e.2)).filterMap
        UpdateArgs.progress =
      l.map (fun e => 40 + 3 * e.1 / 5) := by
  induction l with
  | nil => rfl
  | cons e rest ih =>
    simp only [List.map_cons]
    rw [List.filterMap_cons_some (by rfl), ih]

theorem renderEvents_scaled_chain (k : ℕ) :
    List.Chain' (· ≤ ·)
      ((renderProgressEvents k).map (fun e => 40 + 3 * e.1 / 5)) := by
  have hmap : (renderProgressEvents k).map (fun e => 40 + 3 * e.1 / 5) =
      ((renderProgressEvents k).map Prod.fst).map (fun p => 40 + 3 * p / 5) := by
    rw [List.map_map]
    rfl
  rw [hmap, List.chain'_map]
  refine (renderEvents_chain k).imp ?_
  intro a b hab
  have := Nat.div_le_div_right (c := 5) (Nat.mul_le_mul_left 3 hab)
  omega

theorem planned_take_nonterminal (us : List UpdateArgs) (j : ℕ)
    (h : ∀ u ∈ us, u.status ≠ some .completed ∧ u.status ≠ some .failed) :
    (((us.take j).foldl applyUpdate initialRecord).status ≠ .completed) ∧
    (((us.take j).foldl applyUpdate initialRecord).status ≠ .failed) :=
  status_foldl_nonterminal _ _ (by simp [initialRecord]) (by simp [initialRecord])
    (fun u hu => h u (List.take_subset _ _ hu))

theorem initialRecord_not_terminal :
    ((initialRecord.status = JStatus.completed ∨
        initialRecord.status = JStatus.failed) → False) ∧
    (initialRecord.status = JStatus.processing → False) := by
  constructor
  · intro habs
    rcases habs with h | h <;> simp [initialRecord] at h
  · intro h
    simp [initialRecord] at h

theorem plannedLocal_statuses (k : ℕ) :
    ∀ u ∈ plannedLocalUpdates k,
      u.status ≠ some .completed ∧ u.status ≠ some .failed := by
  intro u hu
  rcases List.mem_cons.mp hu with rfl | hu
  · constructor <;> simp
  · obtain ⟨e, -, rfl⟩ := List.mem_map.mp hu
    constructor <;> simp [progressUpd]

theorem plannedLocal_traceOK (k : ℕ) :
    TraceOK initialRecord (plannedLocalUpdates k) ∧
    ((plannedLocalUpdates k).foldl applyUpdate initialRecord).status =
      .processing := by
  have hstatuses : ∀ u ∈ (renderProgressEvents k).map
      (fun e => progressUpd e.1 e.2), u.status = none := by
    intro u hu
    obtain ⟨e, -, rfl⟩ := List.mem_map.mp hu
    rfl
  have hchain : List.Chain' (· ≤ ·)
      ((0 : ℕ) :: ((renderProgressEvents k).map
        (fun e => progressUpd e.1 e.2)).filterMap UpdateArgs.progress) := by
    rw [filterMap_progressUpd]
    exact List.chain'_cons'.mpr ⟨fun y _ => Nat.zero_le y, renderEvents_chain k⟩
  obtain ⟨h1, h2⟩ := traceOK_neutral _
    (applyUpdate initialRecord
      { status := some .processing, progress := some 0,
        currentStep := some "Starting render" }) rfl hstatuses hchain
  exact ⟨⟨fun habs => absurd habs (fun h => initialRecord_not_terminal.1 h),
      fun hp => absurd hp (fun h => initialRecord_not_terminal.2 h), h1⟩,
    by simpa using h2⟩

theorem processRenderJobTrace_ok (k : ℕ) (o : RenderOutcome) :
    TraceOK initialRecord (processRenderJobTrace k o) := by
  obtain ⟨h1, h2⟩ := plannedLocal_traceOK k
  cases o with
  | success url =>
    refine traceOK_snoc_terminal _ _ _ (Or.inl rfl) h1 ?_ ?_ <;> rw [h2] <;> simp
  | failure j e =>
    exact traceOK_snoc_terminal _ _ _ (Or.inr rfl) (traceOK_take _ _ j h1)
      (planned_take_nonterminal _ j (plannedLocal_statuses k)).1
      (planned_take_nonterminal _ j (plannedLocal_statuses k)).2

theorem filterMap_modalPolls (useGpu : Bool) :
    ((List.range 200).map (modalPollUpd useGpu)).filterMap UpdateArgs.progress =
      (List.range 200).map (fun polls => min 90 (5 + polls * 85 / 200)) := by
  generalize List.range 200 = l
  induction l with
  | nil => rfl
  | cons a rest ih =>
    simp only [List.map_cons]
    rw [List.filterMap_cons_some (by rfl), ih]

theorem plannedModal_statuses (cid : String) (useGpu : Bool) :
    ∀ u ∈ plannedModalUpdates cid useGpu,
      u.status ≠ some .completed ∧ u.status ≠ some .failed := by
  intro u hu
  rcases List.mem_cons.mp hu with rfl | hu
  · constructor <;> simp [modalStartUpd]
  rcases List.mem_cons.mp hu with rfl | hu
  · constructor <;> simp [modalSubmittedUpd]
  obtain ⟨e, -, rfl⟩ := List.mem_map.mp hu
  constructor <;> simp [modalPollUpd, progressUpd]

theorem plannedModal_traceOK (cid : String) (useGpu : Bool) :
    TraceOK initialRecord (plannedModalUpdates cid useGpu) ∧
    ((plannedModalUpdates cid useGpu).foldl applyUpdate initialRecord).status =
      .processing := by
  have hstatuses : ∀ u ∈ modalSubmittedUpd cid useGpu ::
      (List.range 200).map (modalPollUpd useGpu), u.status = none := by
    intro u hu
    rcases List.mem_cons.mp hu with rfl | hu
    · rfl
    · obtain ⟨e, -, rfl⟩ := List.mem_map.mp hu
      rfl
  have hchain : List.Chain' (· ≤ ·) ((0 : ℕ) ::
      (modalSubmittedUpd cid useGpu ::
        (List.range 200).map (modalPollUpd useGpu)).filterMap
        UpdateArgs.progress) := by
    rw [List.filterMap_cons_some (by rfl), filterMap_modalPolls]
    refine List.chain'_cons'.mpr ⟨fun y hy => by simp at hy; omega,
      List.chain'_cons'.mpr ⟨fun y hy => ?_, ?_⟩⟩
    · rw [head?_map_range _ _ (by omega : 0 < 200)] at hy
      simp at hy
      omega
    · refine chain_le_map_range _ 200 (fun i => ?_)
      refine min_le_min le_rfl ?_
      have := Nat.div_le_div_right (c := 200)
        (Nat.mul_le_mul_right 85 (Nat.le_succ i))
      omega
  obtain ⟨h1, h2⟩ := traceOK_neutral _
    (applyUpdate initialRecord modalStartUpd) rfl hstatuses hchain
  have hunfold : plannedModalUpdates cid useGpu =
      modalStartUpd :: modalSubmittedUpd cid useGpu ::
        (List.range 200).map (modalPollUpd useGpu) := rfl
  constructor
  · rw [hunfold]
    exact ⟨fun habs => absurd habs (fun h => initialRecord_not_terminal.1 h),
      fun hp => absurd hp (fun h => initialRecord_not_terminal.2 h), h1⟩
  · rw [hunfold, List.foldl_cons]
    exact h2

theorem processModalRenderJobTrace_ok (cid : String) (useGpu : Bool)
    (o : ModalOutcome) :
    TraceOK initialRecord (processModalRenderJobTrace cid useGpu o) := by
  obtain ⟨h1, h2⟩ := plannedModal_traceOK cid useGpu
  cases o with
  | completes polls url =>
    exact traceOK_snoc_terminal _ _ _ (Or.inl rfl)
      (traceOK_take _ _ (2 + polls) h1)
      (planned_take_nonterminal _ (2 + polls) (plannedModal_statuses cid useGpu)).1
      (planned_take_nonterminal _ (2 + polls) (plannedModal_statuses cid useGpu)).2
  | failsAt j e =>
    exact traceOK_snoc_terminal _ _ _ (Or.inr rfl) (traceOK_take _ _ j h1)
      (planned_take_nonterminal _ j (plannedModal_statuses cid useGpu)).1
      (planned_take_nonterminal _ j (plannedModal_statuses cid useGpu)).2

theorem plannedAuto_statuses (hasSem : Bool) (f v k : ℕ) :
    ∀ u ∈ plannedAutoUpdates hasSem f v k,
      u.status ≠ some .completed ∧ u.status ≠ some .failed := by
  intro u hu
  unfold plannedAutoUpdates at hu
  rcases List.mem_append.mp hu with hu | hu
  · cases hasSem with
    | false => simp at hu
    | true =>
      simp at hu
      subst hu
      constructor <;> simp [autoQueuedUpd]
  · rcases List.mem_cons.mp hu with rfl | hu
    · constructor <;> simp [autoProcessingUpd]
    rcases List.mem_cons.mp hu with rfl | hu
    · constructor <;> simp [progressUpd]
    rcases List.mem_cons.mp hu with rfl | hu
    · constructor <;> simp [progressUpd]
    rcases List.mem_cons.mp hu with rfl | hu
    · constructor <;> simp [progressUpd]
    obtain ⟨e, -, rfl⟩ := List.mem_map.mp hu
    constructor <;> simp [progressUpd]

theorem plannedAuto_traceOK (hasSem : Bool) (f v k : ℕ) :
    TraceOK initialRecord (plannedAutoUpdates hasSem f v k) ∧
    ((plannedAutoUpdates hasSem f v k).foldl applyUpdate
      initialRecord).status = .processing := by
  have hcore : ∀ (r : JobRecord), r.status = .queued →
      TraceOK r (autoProcessingUpd ::
        progressUpd 20 ("Found " ++ toString f ++
          " images. Verifying accessibility...") ::
        progressUpd 30 ("Verified " ++ toString v ++
          " images. Preparing render...") ::
        progressUpd 40 "Rendering video..." ::
        (renderProgressEvents k).map
          (fun e => progressUpd (40 + 3 * e.1 / 5) e.2)) ∧
      ((autoProcessingUpd ::
        progressUpd 20 ("Found " ++ toString f ++
          " images. Verifying accessibility...") ::
        progressUpd 30 ("Verified " ++ toString v ++
          " images. Preparing render...") ::
        progressUpd 40 "Rendering video..." ::
        (renderProgressEvents k).map
          (fun e => progressUpd (40 + 3 * e.1 / 5) e.2)).foldl applyUpdate
        r).status = .processing := by
    intro r hr
    have hstatuses : ∀ u ∈ progressUpd 20 ("Found " ++ toString f ++
        " images. Verifying accessibility...") ::
        progressUpd 30 ("Verified " ++ toString v ++
          " images. Preparing render...") ::
        progressUpd 40 "Rendering video..." ::
        (renderProgressEvents k).map
          (fun e => progressUpd (40 + 3 * e.1 / 5) e.2), u.status = none := by
      intro u hu
      rcases List.mem_cons.mp hu with rfl | hu
      · rfl
      rcases List.mem_cons.mp hu with rfl | hu
      · rfl
      rcases List.mem_cons.mp hu with rfl | hu
      · rfl
      obtain ⟨e, -, rfl⟩ := List.mem_map.mp hu
      rfl
    have hchain : List.Chain' (· ≤ ·) ((5 : ℕ) ::
        (progressUpd 20 ("Found " ++ toString f ++
          " images. Verifying accessibility...") ::
        progressUpd 30 ("Verified " ++ toString v ++
          " images. Preparing render...") ::
        progressUpd 40 "Rendering video..." ::
        (renderProgressEvents k).map
          (fun e => progressUpd (40 + 3 * e.1 / 5) e.2)).filterMap
          UpdateArgs.progress) := by
      rw [List.filterMap_cons_some (by rfl), List.filterMap_cons_some (by rfl),
        List.filterMap_cons_some (by rfl), filterMap_progressUpd_scaled]
      refine List.chain'_cons'.mpr ⟨fun y hy => by simp at hy; omega,
        List.chain'_cons'.mpr ⟨fun y hy => by simp at hy; omega,
        List.chain'_cons'.mpr ⟨fun y hy => by simp at hy; omega,
        List.chain'_cons'.mpr ⟨fun y hy => ?_, renderEvents_scaled_chain k⟩⟩⟩⟩
      simp [renderProgressEvents] at hy
      omega
    have hst2 : (applyUpdate r autoProcessingUpd).status = .processing :=
      applyUpdate_status_some rfl
    have hpr2 : (applyUpdate r autoProcessingUpd).progress = 5 :=
      applyUpdate_progress_some rfl
    rw [← hpr2] at hchain
    obtain ⟨h1, h2⟩ := traceOK_neutral _ _ hst2 hstatuses hchain
    refine ⟨⟨?_, ?_, h1⟩, by rw [List.foldl_cons]; exact h2⟩
    · intro habs
      rcases habs with h | h <;> rw [hr] at h <;> cases h
    · intro hp
      rw [hr] at hp
      cases hp
  cases hasSem with
  | false =>
    have hunfold : plannedAutoUpdates false f v k = autoProcessingUpd ::
        progressUpd 20 ("Found " ++ toString f ++
          " images. Verifying accessibility...") ::
        progressUpd 30 ("Verified " ++ toString v ++
          " images. Preparing render...") ::
        progressUpd 40 "Rendering video..." ::
        (renderProgressEvents k).map
          (fun e => progressUpd (40 + 3 * e.1 / 5) e.2) := rfl
    rw [hunfold]
    exact hcore initialRecord rfl
  | true =>
    have hunfold : plannedAutoUpdates true f v k =
        autoQueuedUpd :: autoProcessingUpd ::
        progressUpd 20 ("Found " ++ toString f ++
          " images. Verifying accessibility...") ::
        progressUpd 30 ("Verified " ++ toString v ++
          " images. Preparing render...") ::
        progressUpd 40 "Rendering video..." ::
        (renderProgressEvents k).map
          (fun e => progressUpd (40 + 3 * e.1 / 5) e.2) := rfl
    rw [hunfold]
    have hq : (applyUpdate initialRecord autoQueuedUpd).status = .queued :=
      applyUpdate_status_some rfl
    obtain ⟨h1, h2⟩ := hcore (applyUpdate initialRecord autoQueuedUpd) hq
    constructor
    · exact ⟨fun habs => absurd habs (fun h => initialRecord_not_terminal.1 h),
        fun hp => absurd hp (fun h => initialRecord_not_terminal.2 h), h1⟩
    · rw [List.foldl_cons]
      exact h2

theorem processAutoComposeTrace_ok (hasSem : Bool) (f v k : ℕ)
    (o : AutoOutcome) :
    TraceOK initialRecord (processAutoComposeTrace hasSem f v k o) := by
  obtain ⟨h1, h2⟩ := plannedAuto_traceOK hasSem f v k
  cases o with
  | success url meta =>
    refine traceOK_snoc_terminal _ _ _ (Or.inl rfl) h1 ?_ ?_ <;> rw [h2] <;> simp
  | failure j e =>
    exact traceOK_snoc_terminal _ _ _ (Or.inr rfl) (traceOK_take _ _ j h1)
      (planned_take_nonterminal _ j (plannedAuto_statuses hasSem f v k)).1
      (planned_take_nonterminal _ j (plannedAuto_statuses hasSem f v k)).2

/-- Claim C7: along each execution path (local render, Modal render,
auto-compose), over the sequence of job-record updates of one
execution, once the stored status is Completed or Failed no later
update of that execution changes it, and the stored progress is
non-decreasing across updates made while the status is Processing —
for every image count, found/verified counts, semaphore configuration,
GPU flag, call id, and execution outcome (success, early failure,
exception, poll completion, or timeout). -/
theorem claim_C7_state_machine_safety (k foundImages verifiedImages : ℕ)
    (hasSemaphore useGpu : Bool) (callId : String)
    (o1 : RenderOutcome) (o2 : ModalOutcome) (o3 : AutoOutcome) :
    TraceOK initialRecord (processRenderJobTrace k o1) ∧
    TraceOK initialRecord (processModalRenderJobTrace callId useGpu o2) ∧
    TraceOK initialRecord
      (processAutoComposeTrace hasSemaphore foundImages verifiedImages k o3) :=
  ⟨processRenderJobTrace_ok k o1,
   processModalRenderJobTrace_ok callId useGpu o2,
   processAutoComposeTrace_ok hasSemaphore foundImages verifiedImages k o3⟩

end HydraCompose
